import Mathlib

/-!
# Go_vuln_scan: a verification development for `main.go`

Shallow embedding of the scan orchestrator (`main.go`) and theorems about it.

Modelling conventions.

* Go strings are Lean `String`s (sequences of Unicode code points); the embedding
  therefore covers the valid UTF-8 strings.
* Library calls whose code is outside the repository are either modelled from their
  documented behaviour (`strings.TrimSpace`, `strings.Contains`, `strings.Split`,
  `strings.HasPrefix`, `strings.HasSuffix`, `fmt.Sprintf`, `filepath.Join` with `/` as
  the separator, `SetCellValue` of excelize with its limits), or taken as parameters
  (`strings.ToLower` as `toLower`, `url.Parse` as `urlParse`, `gjson.Get(..).String()`
  as `gjsonGet`).
* A Go `map[string]T` is an association list with at most one entry per key; reading an
  absent key yields the zero value of `T`.
* The file system and the remote search service are explicit values (`Store`, and an
  optional list of identifiers per keyword).
-/

namespace GoVulnScan

/-! ## Strings -/

/-- White space in the sense of Go's `unicode.IsSpace`. -/
def isSpace (c : Char) : Bool :=
  c.val = 0x09 || c.val = 0x0A || c.val = 0x0B || c.val = 0x0C || c.val = 0x0D ||
  c.val = 0x20 || c.val = 0x85 || c.val = 0xA0 || c.val = 0x1680 ||
  (0x2000 ≤ c.val && c.val ≤ 0x200A) ||
  c.val = 0x2028 || c.val = 0x2029 || c.val = 0x202F || c.val = 0x205F || c.val = 0x3000

/-- Drop the trailing white space of a character list. -/
def trimRight (l : List Char) : List Char :=
  ((l.reverse).dropWhile isSpace).reverse

/-- Drop leading and trailing white space of a character list. -/
def trimChars (l : List Char) : List Char :=
  trimRight (l.dropWhile isSpace)

/-- Go `strings.TrimSpace`. -/
def trimSpace (s : String) : String :=
  String.mk (trimChars s.data)

/-- Whether `sub` occurs as a contiguous block of `l`. -/
def containsChars (sub : List Char) : List Char → Bool
  | [] => sub.isEmpty
  | c :: cs => sub.isPrefixOf (c :: cs) || containsChars sub cs

/-- Go `strings.Contains`. -/
def strContains (s sub : String) : Bool :=
  containsChars sub.data s.data

/-- Go `strings.HasPrefix`. -/
def hasPrefix (s pre : String) : Bool :=
  pre.data.isPrefixOf s.data

/-- Go `strings.HasSuffix`. -/
def hasSuffix (s suf : String) : Bool :=
  suf.data.reverse.isPrefixOf s.data.reverse

/-- Split a character list at every occurrence of `sep`; the pieces are never zero in
number. -/
def splitChars (sep : Char) : List Char → List (List Char)
  | [] => [[]]
  | c :: cs =>
    if c = sep then [] :: splitChars sep cs
    else
      match splitChars sep cs with
      | [] => [[c]]
      | piece :: rest => (c :: piece) :: rest

/-- Go `strings.Split(s, "\n")`. -/
def splitLines (s : String) : List String :=
  (splitChars '\n' s.data).map String.mk

/-- Go `strings.Join(xs, "\n")`. -/
def joinLines (xs : List String) : String :=
  "\n".intercalate xs

/-- Lower-casing of the ASCII letters, other characters unchanged. It agrees with Go
`strings.ToLower` on ASCII strings and is used for concrete inputs only; the general
theorems take the case mapping as a parameter. -/
def asciiLower (s : String) : String :=
  String.mk (s.data.map Char.toLower)

/-! ## Go maps -/

/-- A Go `map[string]ν`. -/
abbrev GoMap (ν : Type) := List (String × ν)

/-- The entry stored under `k`, if any (`v, ok := m[k]`). -/
def mapFind {ν : Type} : GoMap ν → String → Option ν
  | [], _ => none
  | (k', v) :: rest, k => if k' = k then some v else mapFind rest k

/-- The value read by `m[k]`: the zero value `zero` when the key is absent. -/
def mapGet {ν : Type} (zero : ν) (m : GoMap ν) (k : String) : ν :=
  (mapFind m k).getD zero

/-- The assignment `m[k] = v`. -/
def mapSet {ν : Type} : GoMap ν → String → ν → GoMap ν
  | [], k, v => [(k, v)]
  | (k', v') :: rest, k, v =>
    if k' = k then (k, v) :: rest else (k', v') :: mapSet rest k v

/-- The keys of a map. -/
def mapKeys {ν : Type} (m : GoMap ν) : List String :=
  m.map Prod.fst

/-! ## `main`: grouping the input table (lines 77-95) -/

/-- The two groupings built by `main`. -/
structure Groups where
  cmsMap : GoMap (List String)
  serverMap : GoMap (List String)
  deriving DecidableEq, Repr

/-- The statement `m[k] = append(m[k], url)`. -/
def appendUrl (m : GoMap (List String)) (k url : String) : GoMap (List String) :=
  mapSet m k (mapGet [] m k ++ [url])

/-- One iteration of the loop `for i, row := range rows` of `main`. -/
def groupRow (toLower : String → String) (g : Groups) (i : Nat) (row : List String) :
    Groups :=
  if i = 0 ∨ row.length < 3 then g
  else
    let url := trimSpace (row.getD 0 "")
    let cms := toLower (trimSpace (row.getD 1 ""))
    let server := toLower (trimSpace (row.getD 2 ""))
    if url ≠ "" then
      let g1 : Groups :=
        if cms ≠ "" then { g with cmsMap := appendUrl g.cmsMap cms url } else g
      if server ≠ "" then { g1 with serverMap := appendUrl g1.serverMap server url }
      else g1
    else g

/-- The loop of `main` from row index `i` on. -/
def groupLoop (toLower : String → String) : Nat → List (List String) → Groups → Groups
  | _, [], g => g
  | i, row :: rest, g => groupLoop toLower (i + 1) rest (groupRow toLower g i row)

/-- The groupings `main` builds from the rows of `Sheet1`. -/
def groupRows (toLower : String → String) (rows : List (List String)) : Groups :=
  groupLoop toLower 0 rows { cmsMap := [], serverMap := [] }

/-- Number of cells of a row that are not the empty string. -/
def nonEmptyCells (row : List String) : Nat :=
  (row.filter (fun c => c ≠ "")).length

/-- The URL a row contributes to the entry `k` of the grouping on column `col`, read off
the description of the grouping: the row has at least 3 cells, its trimmed URL is not
empty and its trimmed, lower-cased label in column `col` is `k`. -/
def rowUrlFor (toLower : String → String) (col : Nat) (k : String) (row : List String) :
    Option String :=
  if 3 ≤ row.length ∧ trimSpace (row.getD 0 "") ≠ "" ∧
      toLower (trimSpace (row.getD col "")) = k
  then some (trimSpace (row.getD 0 "")) else none

/-- The described entry for key `k`: the contributions of the rows after the header, in
row order. -/
def groupingSpec (toLower : String → String) (col : Nat) (rows : List (List String))
    (k : String) : List String :=
  (rows.drop 1).filterMap (rowUrlFor toLower col k)

/-! ## The check resolver (lines 245-300) -/

/-- The local definition store as the three calls of the resolver observe it. -/
structure Store where
  /-- Whether `os.Stat(path)` succeeds. -/
  statOk : String → Bool
  /-- The entry names `os.ReadDir("poc/cve")` returns, `none` when it fails. -/
  readDirCve : Option (List String)
  /-- The paths `filepath.WalkDir("poc", ..)` visits, in visiting order, each with
  whether the callback received `err == nil`. -/
  walkPoc : List (String × Bool)

/-- One path element in the loop of Go `filepath.Clean`; `stack` holds the elements kept
so far, last one first. An empty element and `.` are dropped, `..` removes the last kept
element when there is one that is not itself `..`, and is otherwise kept in a path that
is not rooted. -/
def cleanStep (rooted : Bool) (stack : List (List Char)) (c : List Char) :
    List (List Char) :=
  if c = [] ∨ c = ['.'] then stack
  else if c = ['.', '.'] then
    match stack with
    | [] => if rooted then [] else [c]
    | top :: rest => if top = ['.', '.'] then c :: stack else rest
  else c :: stack

/-- Go `filepath.Clean`, with `/` as the separator. -/
def pathClean (path : String) : String :=
  if path = "" then "."
  else
    let rooted := decide (path.data.head? = some '/')
    let kept := ((splitChars '/' path.data).foldl (cleanStep rooted) []).reverse
    let body := String.mk (List.intercalate ['/'] kept)
    if rooted then "/" ++ body
    else if kept = [] then "."
    else body

/-- Go `filepath.Join`, with `/` as the separator: the non-empty elements joined and the
result cleaned; the empty string when there is no non-empty element. -/
def pathJoin (parts : List String) : String :=
  if parts.filter (fun x => x ≠ "") = [] then ""
  else pathClean ("/".intercalate (parts.filter (fun x => x ≠ "")))

/-- The function `searchRealCVE`. The remote service is `remote`: `remote keyword` is
`none` when `http.Get` fails and otherwise the identifiers that `data.#.id` selects in the
response body. -/
def searchRealCVE (remote : String → Option (List String)) (keyword : String) :
    List String :=
  match remote keyword with
  | none => []
  | some cves => if cves.length > 5 then cves.take 5 else cves

/-- The function `findYAMLs` (source A). -/
def findYAMLs (store : Store) : List String → List String
  | [] => []
  | cve :: rest =>
    let file := pathJoin ["poc", "cve", cve ++ ".yaml"]
    if store.statOk file then file :: findYAMLs store rest else findYAMLs store rest

/-- The loop of `findCNVDYAMLs` over the directory entries. -/
def cnvdLoop (toLower : String → String) (keyword : String) : List String → List String
  | [] => []
  | name :: rest =>
    if hasPrefix name "CNVD" && strContains (toLower name) keyword
    then pathJoin ["poc", "cve", name] :: cnvdLoop toLower keyword rest
    else cnvdLoop toLower keyword rest

/-- The function `findCNVDYAMLs` (source B). -/
def findCNVDYAMLs (store : Store) (toLower : String → String) (keyword : String) :
    List String :=
  match store.readDirCve with
  | none => []
  | some entries => cnvdLoop toLower keyword entries

/-- The walk callback of `findKeywordYAMLs`, applied to the visited paths in turn. -/
def keywordLoop (toLower : String → String) (keyword : String) :
    List (String × Bool) → List String
  | [] => []
  | (path, ok) :: rest =>
    if ok && hasSuffix path ".yaml" && strContains (toLower path) keyword
    then path :: keywordLoop toLower keyword rest
    else keywordLoop toLower keyword rest

/-- The function `findKeywordYAMLs` (source C). -/
def findKeywordYAMLs (store : Store) (toLower : String → String) (keyword : String) :
    List String :=
  keywordLoop toLower keyword store.walkPoc

/-- The check list `pocs` that `scanGrouped` assembles for one keyword (lines
110-115). -/
def resolveChecks (store : Store) (remote : String → Option (List String))
    (toLower : String → String) (keyword : String) : List String :=
  let cves := searchRealCVE remote keyword
  let pocs := findYAMLs store cves
  let cnvd := findCNVDYAMLs store toLower keyword
  let pocs := pocs ++ cnvd
  let kwPocs := findKeywordYAMLs store toLower keyword
  pocs ++ kwPocs

/-- A store that holds the directory `poc/cve` with the given files and nothing
else. -/
def storeOfCveFiles (names : List String) : Store where
  statOk := fun path =>
    decide (path ∈ "poc" :: "poc/cve" :: names.map (fun n => pathJoin ["poc", "cve", n]))
  readDirCve := some names
  walkPoc := ("poc", true) :: ("poc/cve", true) ::
    names.map (fun n => (pathJoin ["poc", "cve", n], true))

/-! ## The dispatcher `scanGrouped` (lines 104-136) -/

/-- The tasks started by the inner loop `for _, poc := range pocs` for one URL. -/
def tasksForUrl (url : String) : List String → List (String × String)
  | [] => []
  | poc :: rest => (url, poc) :: tasksForUrl url rest

/-- The tasks started by the loop `for _, url := range urls`, in starting order. -/
def tasksForUrls (pocs : List String) : List String → List (String × String)
  | [] => []
  | url :: rest => tasksForUrl url pocs ++ tasksForUrls pocs rest

/-- The `(URL, check)` tasks one iteration of `scanGrouped` starts for a fingerprint
with URL list `urls` and check list `pocs`. -/
def scheduleTasks (urls pocs : List String) : List (String × String) :=
  if pocs.length = 0 then [] else tasksForUrls pocs urls

/-- The tasks `scanGrouped` starts for the fingerprint `keyword` of `group`. -/
def groupTasks (store : Store) (remote : String → Option (List String))
    (toLower : String → String) (group : GoMap (List String)) (keyword : String) :
    List (String × String) :=
  scheduleTasks (mapGet [] group keyword) (resolveChecks store remote toLower keyword)

/-- All tasks of one call of `scanGrouped`, fingerprint by fingerprint. -/
def scanGrouped (store : Store) (remote : String → Option (List String))
    (toLower : String → String) (group : GoMap (List String)) :
    List (String × List (String × String)) :=
  group.map (fun entry =>
    (entry.1, scheduleTasks entry.2 (resolveChecks store remote toLower entry.1)))

/-! ## The admission limiter (lines 28-32 and 122-134)

Every task goroutine runs `semaphore <- struct{}{}; runNucleiScan(u, p); <-semaphore`
on the one buffered channel `semaphore` of capacity 10. The goroutines are modelled as an
interleaving transition system: a state holds the number of tokens in the channel buffer
and the program point of every goroutine started so far; a send is enabled only while the
buffer is not full and a receive only while it is not empty. Goroutines may be started at
any time, which covers every grouping, every fingerprint and both calls of
`scanGrouped`. -/

/-- Program points of a task goroutine. -/
inductive Pc where
  /-- Started, before `semaphore <- struct{}{}` has completed. -/
  | waiting
  /-- Inside `runNucleiScan`. -/
  | scanning
  /-- `runNucleiScan` has returned, `<-semaphore` not yet executed. -/
  | scanned
  /-- The goroutine has executed `<-semaphore`. -/
  | finished
  deriving DecidableEq, Repr

/-- Capacity of the channel `semaphore`. -/
def semCapacity : Nat := 10

/-- The state of the limiter and of all task goroutines. -/
structure Sched where
  /-- Number of tokens in the buffer of `semaphore`. -/
  sem : Nat
  /-- Program point of every goroutine started so far. -/
  tasks : List Pc
  deriving DecidableEq, Repr

/-- The atomic steps of the system. -/
inductive Action where
  /-- The statement `go func(u, p string) {...}(url, poc)` starts a goroutine. -/
  | spawn
  /-- Goroutine `i` completes `semaphore <- struct{}{}` and enters `runNucleiScan`. -/
  | acquire (i : Nat)
  /-- The call `runNucleiScan(u, p)` of goroutine `i` returns. -/
  | scanReturn (i : Nat)
  /-- Goroutine `i` executes `<-semaphore`. -/
  | release (i : Nat)
  deriving DecidableEq, Repr

/-- One step; `none` when the action is not enabled in the state. -/
def step (s : Sched) : Action → Option Sched
  | Action.spawn => some { s with tasks := s.tasks ++ [Pc.waiting] }
  | Action.acquire i =>
    if s.tasks.get? i = some Pc.waiting ∧ s.sem < semCapacity
    then some { sem := s.sem + 1, tasks := s.tasks.set i Pc.scanning }
    else none
  | Action.scanReturn i =>
    if s.tasks.get? i = some Pc.scanning
    then some { s with tasks := s.tasks.set i Pc.scanned }
    else none
  | Action.release i =>
    if s.tasks.get? i = some Pc.scanned ∧ 0 < s.sem
    then some { sem := s.sem - 1, tasks := s.tasks.set i Pc.finished }
    else none

/-- Run a sequence of steps (an interleaving); `none` when one of them is not enabled. -/
def run : Sched → List Action → Option Sched
  | s, [] => some s
  | s, a :: rest =>
    match step s a with
    | none => none
    | some s' => run s' rest

/-- The state at program start: empty channel, no goroutine. -/
def initSched : Sched := { sem := 0, tasks := [] }

/-- Number of calls of `runNucleiScan` in flight. -/
def inFlight (s : Sched) : Nat := s.tasks.count Pc.scanning

/-- Number of goroutines that have placed a token and not yet removed it. -/
def tokenHolders (s : Sched) : Nat :=
  s.tasks.count Pc.scanning + s.tasks.count Pc.scanned


/-! ## The result aggregator `parseAllNucleiResults` (lines 153-177) -/

/-- The Go struct `Result`. -/
structure Result where
  URL : String
  PoC : String
  Template : String
  Severity : String
  deriving DecidableEq, Repr

/-- The body of the loop `for _, line := range lines`, on the global `results`.
The parameter `gjsonGet line path` stands for `gjson.Get(line, path).String()`. -/
def parseLine (gjsonGet : String → String → String) (results : List Result)
    (line : String) : List Result :=
  if trimSpace line = "" then results
  else
    let url := gjsonGet line "host"
    let tpl := gjsonGet line "template-id"
    let severity := gjsonGet line "info.severity"
    if url ≠ "" ∧ tpl ≠ "" then
      results ++ [{ URL := url, PoC := tpl, Template := tpl, Severity := severity }]
    else results

/-- The body of the loop `for _, file := range files`; `data` is the content read from
the file (empty when the read fails). -/
def parseFile (gjsonGet : String → String → String) (results : List Result)
    (data : String) : List Result :=
  (splitLines data).foldl (parseLine gjsonGet) results

/-- The function `parseAllNucleiResults`: `files` are the contents of the `*.json` files
of the directory in the order of `filepath.Glob`; the global `results` is threaded
through. -/
def parseAllNucleiResults (gjsonGet : String → String → String) (files : List String)
    (results : List Result) : List Result :=
  files.foldl (parseFile gjsonGet) results

/-- A line that is a record with a host and a template id. -/
def isFindingLine (gjsonGet : String → String → String) (line : String) : Bool :=
  decide (trimSpace line ≠ "" ∧ gjsonGet line "host" ≠ "" ∧
    gjsonGet line "template-id" ≠ "")

/-- The finding described for a record line. -/
def findingOfLine (gjsonGet : String → String → String) (line : String) : Result :=
  { URL := gjsonGet line "host", PoC := gjsonGet line "template-id",
    Template := gjsonGet line "template-id", Severity := gjsonGet line "info.severity" }

/-- The described findings: one per record line, in file order then line order. -/
def findingsSpec (gjsonGet : String → String → String) (files : List String) :
    List Result :=
  ((files.flatMap splitLines).filter (isFindingLine gjsonGet)).map (findingOfLine gjsonGet)

/-- The record line of the example. -/
def sampleRecordLine : String :=
  "\x7b\"host\":\"http://a:80\",\"template-id\":\"CVE-2021-1111\",\"info\":\x7b\"severity\":\"high\"\x7d\x7d"

/-- A line that is not a record. -/
def sampleBadLine : String := "scan aborted: connection refused"

/-- An artifact file with the record line followed by the line that is not a record. -/
def sampleArtifact : String :=
  sampleRecordLine ++ "\n" ++ sampleBadLine ++ "\n"

/-- A line that is not well-formed: text before the opening brace and no closing
brace. -/
def sampleMalformedLine : String :=
  "garbage \x7b\"host\":\"http://a:80\",\"template-id\":\"CVE-2021-1111\""

/-- Whether a line, white space aside, starts with an opening and ends with a closing
brace, as every well-formed record (a JSON object) does. -/
def enclosedInBraces (line : String) : Bool :=
  hasPrefix (trimSpace line) "\x7b" && hasSuffix (trimSpace line) "\x7d"

/-- The values of `gjson.Get(line, path).String()` on the lines of the examples. From
the record line gjson reads its 3 fields. From the malformed line it reads the host and
the template id as well, since it scans from the first opening brace and stops at the
value of the matching key; that line has no `info`. From a line without any brace it
reads nothing. -/
def sampleGjsonGet (line path : String) : String :=
  if line = sampleRecordLine
  then
    if path = "host" then "http://a:80"
    else if path = "template-id" then "CVE-2021-1111"
    else if path = "info.severity" then "high"
    else ""
  else if line = sampleMalformedLine
  then
    if path = "host" then "http://a:80"
    else if path = "template-id" then "CVE-2021-1111"
    else ""
  else ""

/-! ## The report emitter `exportResultExcel` (lines 179-195) -/

/-- The cell name `fmt.Sprintf("A%d", row)` for a column letter. -/
def cellName (col : String) (row : Nat) : String :=
  col ++ Nat.repr row

/-- The number a string of decimal digits denotes. -/
def decValue (cs : List Char) : Nat :=
  cs.foldl (fun acc c => acc * 10 + (c.toNat - 48)) 0

/-- The row number excelize reads from a cell name made of one column letter and a
decimal number. -/
def cellRow (cell : String) : Nat :=
  decValue (cell.data.drop 1)

/-- The text excelize stores for a string value: a value of more than 32767 characters
(`TotalCellChars`) is cut to its first 32767 characters. -/
def cellText (v : String) : String :=
  if v.length > 32767 then String.mk (v.data.take 32767) else v

/-- The call `f.SetCellValue(sheet, cell, v)` with its returned error dropped, as in
lines 183-192; a sheet is the map from cell names to stored texts. A cell in a row past
1048576 (`TotalRows`) makes the call fail and nothing is written. -/
def setCellValue (sheet : GoMap String) (cell v : String) : GoMap String :=
  if cellRow cell > 1048576 then sheet else mapSet sheet cell (cellText v)

/-- The 4 `SetCellValue` calls of one iteration of `for i, r := range results`. -/
def writeRow (sheet : GoMap String) (i : Nat) (r : Result) : GoMap String :=
  let sheet := setCellValue sheet (cellName "A" (i + 2)) r.URL
  let sheet := setCellValue sheet (cellName "B" (i + 2)) r.PoC
  let sheet := setCellValue sheet (cellName "C" (i + 2)) r.Template
  setCellValue sheet (cellName "D" (i + 2)) r.Severity

/-- The loop `for i, r := range results` from index `i` on. -/
def writeRows : Nat → List Result → GoMap String → GoMap String
  | _, [], sheet => sheet
  | i, r :: rest, sheet => writeRows (i + 1) rest (writeRow sheet i r)

/-- The header cells written by lines 183-186. -/
def headerSheet : GoMap String :=
  let sheet := setCellValue [] "A1" "URL"
  let sheet := setCellValue sheet "B1" "PoC"
  let sheet := setCellValue sheet "C1" "模板"
  setCellValue sheet "D1" "严重性"

/-- The function `exportResultExcel`: the cells of the sheet `Result` that is saved, for
the global `results`. -/
def exportResultExcel (results : List Result) : GoMap String :=
  writeRows 0 results headerSheet

/-- The cell names of sheet row `row` in columns A to D. -/
def rowCells (row : Nat) : List String :=
  [cellName "A" row, cellName "B" row, cellName "C" row, cellName "D" row]

/-- The 4 writes of a data row that lies within the sheet. -/
def storeRow (sheet : GoMap String) (i : Nat) (r : Result) : GoMap String :=
  mapSet (mapSet (mapSet (mapSet sheet (cellName "A" (i + 2)) (cellText r.URL))
    (cellName "B" (i + 2)) (cellText r.PoC))
    (cellName "C" (i + 2)) (cellText r.Template))
    (cellName "D" (i + 2)) (cellText r.Severity)

/-! ## Input cleaning: `extractBaseURL` and `cleanTxtFile` (lines 197-236) -/

/-- The two fields of the `*url.URL` that `extractBaseURL` reads. -/
structure ParsedURL where
  Scheme : String
  Host : String
  deriving DecidableEq, Repr

/-- The function `extractBaseURL`. The parameter `urlParse` stands for `url.Parse`, with
`none` for a non-nil error. -/
def extractBaseURL (urlParse : String → Option ParsedURL) (raw : String) : String :=
  let trimmed := trimSpace raw
  if !strContains trimmed "://" then trimmed
  else
    match urlParse trimmed with
    | none => ""
    | some u =>
      if u.Scheme = "" ∨ u.Host = "" then ""
      else
        let host :=
          if !strContains u.Host ":" then
            if u.Scheme = "https" then u.Host ++ ":443" else u.Host ++ ":80"
          else u.Host
        u.Scheme ++ "://" ++ host

/-- Go `(*URL).Port`: the digits after the last colon of the host, when what follows that
colon is only digits; empty otherwise. -/
def urlPort (host : String) : String :=
  let rev := host.data.reverse
  let afterRev := rev.takeWhile (fun c => c ≠ ':')
  if afterRev.length = rev.length then ""
  else if afterRev.all Char.isDigit then String.mk afterRev.reverse
  else ""

/-- The loop `for _, line := range lines` of `cleanTxtFile`, on the map `unique` and the
slice `cleaned`. -/
def cleanLoop (urlParse : String → Option ParsedURL) :
    List String → GoMap Bool → List String → List String
  | [], _, cleaned => cleaned
  | line :: rest, unique, cleaned =>
    let t := trimSpace line
    if t = "" then cleanLoop urlParse rest unique cleaned
    else
      let base := extractBaseURL urlParse t
      if base ≠ "" ∧ !(mapGet false unique base) then
        cleanLoop urlParse rest (mapSet unique base true) (cleaned ++ [base])
      else cleanLoop urlParse rest unique cleaned

/-- The function `cleanTxtFile`: the slice `cleaned` computed from the content `data` of
the input file. -/
def cleanTxtFile (urlParse : String → Option ParsedURL) (data : String) : List String :=
  cleanLoop urlParse (splitLines data) [] []

/-- The text `cleanTxtFile` writes to both output files. -/
def cleanedContent (urlParse : String → Option ParsedURL) (data : String) : String :=
  joinLines (cleanTxtFile urlParse data)

/-- A list with every value kept at its first occurrence only. -/
def firstOccurrences : List String → List String
  | [] => []
  | x :: xs => x :: (firstOccurrences xs).filter (fun y => y ≠ x)

/-- The described cleaned list: the non-empty `extractBaseURL` results of the non-blank
lines, each kept at its first occurrence. -/
def cleanedSpec (urlParse : String → Option ParsedURL) (data : String) : List String :=
  firstOccurrences
    ((((splitLines data).filter (fun line => trimSpace line ≠ "")).map
      (extractBaseURL urlParse)).filter (fun base => base ≠ ""))

/-- The values of `url.Parse` on the URLs of the examples: scheme and host of each, and
an error for any other input. -/
def sampleUrlParse (s : String) : Option ParsedURL :=
  if s = "https://example.com/path" ∨ s = "https://example.com/a" ∨
      s = "https://example.com/b" then
    some { Scheme := "https", Host := "example.com" }
  else if s = "http://example.com:8080/x" then
    some { Scheme := "http", Host := "example.com:8080" }
  else if s = "http://[::1]/admin" then
    some { Scheme := "http", Host := "[::1]" }
  else none

/-! # Theorems -/

/-! ## Go maps -/

theorem mapFind_mapSet {ν : Type} (m : GoMap ν) (k k' : String) (v : ν) :
    mapFind (mapSet m k v) k' = if k = k' then some v else mapFind m k' := by
  induction m with
  | nil => simp [mapSet, mapFind]
  | cons e rest ih =>
    obtain ⟨a, b⟩ := e
    by_cases h : a = k
    · subst h
      by_cases h2 : a = k' <;> simp [mapSet, mapFind, h2]
    · by_cases h2 : a = k'
      · subst h2
        have h3 : ¬ k = a := fun e => h e.symm
        simp [mapSet, mapFind, h, h3]
      · simp [mapSet, mapFind, h, h2, ih]

theorem mapGet_mapSet {ν : Type} (zero : ν) (m : GoMap ν) (k k' : String) (v : ν) :
    mapGet zero (mapSet m k v) k' = if k = k' then v else mapGet zero m k' := by
  unfold mapGet
  rw [mapFind_mapSet]
  split <;> rfl

theorem mem_mapKeys_mapSet {ν : Type} (m : GoMap ν) (k k' : String) (v : ν) :
    k' ∈ mapKeys (mapSet m k v) ↔ k' = k ∨ k' ∈ mapKeys m := by
  induction m with
  | nil => simp [mapSet, mapKeys]
  | cons e rest ih =>
    obtain ⟨a, b⟩ := e
    by_cases h : a = k
    · subst h
      simp [mapSet, mapKeys]
    · have ih2 : k' ∈ List.map Prod.fst (mapSet rest k v) ↔
          k' = k ∨ k' ∈ List.map Prod.fst rest := ih
      simp only [mapSet, mapKeys, h, if_false, List.map_cons, List.mem_cons, ih2]
      tauto

theorem mapGet_appendUrl (m : GoMap (List String)) (k k' url : String) :
    mapGet [] (appendUrl m k url) k' =
      if k = k' then mapGet [] m k' ++ [url] else mapGet [] m k' := by
  unfold appendUrl
  rw [mapGet_mapSet]
  by_cases h : k = k'
  · subst h
    simp
  · simp [h]

theorem mem_mapKeys_appendUrl (m : GoMap (List String)) (k k' url : String) :
    k' ∈ mapKeys (appendUrl m k url) ↔ k' = k ∨ k' ∈ mapKeys m := by
  unfold appendUrl
  exact mem_mapKeys_mapSet m k k' _

theorem nodup_mapKeys_mapSet {ν : Type} (m : GoMap ν) (k : String) (v : ν)
    (h : (mapKeys m).Nodup) : (mapKeys (mapSet m k v)).Nodup := by
  induction m with
  | nil => simp [mapSet, mapKeys]
  | cons e rest ih =>
    obtain ⟨a, b⟩ := e
    have h' : a ∉ mapKeys rest ∧ (mapKeys rest).Nodup := by
      simpa [mapKeys] using h
    by_cases hk : a = k
    · subst hk
      simpa [mapSet, mapKeys] using h
    · have hmem : a ∉ mapKeys (mapSet rest k v) := by
        rw [mem_mapKeys_mapSet]
        rintro (x | x)
        · exact hk x
        · exact h'.1 x
      have hnd := ih h'.2
      simp only [mapSet, hk, if_false]
      show (a :: mapKeys (mapSet rest k v)).Nodup
      exact List.Nodup.cons hmem hnd

theorem mapFind_of_mem {ν : Type} (m : GoMap ν) (k : String) (v : ν)
    (h : (mapKeys m).Nodup) (hm : (k, v) ∈ m) : mapFind m k = some v := by
  induction m with
  | nil => simp at hm
  | cons e rest ih =>
    obtain ⟨a, b⟩ := e
    have h' : a ∉ mapKeys rest ∧ (mapKeys rest).Nodup := by
      simpa [mapKeys] using h
    rcases List.mem_cons.mp hm with hm | hm
    · have ha : a = k := (congrArg Prod.fst hm).symm
      have hb : b = v := (congrArg Prod.snd hm).symm
      simp [mapFind, ha, hb]
    · have hne : a ≠ k := by
        intro e
        apply h'.1
        rw [e]
        exact List.mem_map.mpr ⟨(k, v), hm, rfl⟩
      simp only [mapFind, hne, if_false]
      exact ih h'.2 hm

/-! ## Grouping -/

theorem groupRow_short (toLower : String → String) (g : Groups) (i : Nat)
    (row : List String) (h : row.length < 3) : groupRow toLower g i row = g := by
  simp [groupRow, h]

theorem groupRow_header (toLower : String → String) (g : Groups) (row : List String) :
    groupRow toLower g 0 row = g := by
  simp [groupRow]

theorem groupRow_index (toLower : String → String) (g : Groups) (i j : Nat)
    (row : List String) (hi : i ≠ 0) (hj : j ≠ 0) :
    groupRow toLower g i row = groupRow toLower g j row := by
  simp [groupRow, hi, hj]

theorem groupLoop_index (toLower : String → String) (rows : List (List String)) :
    ∀ (i j : Nat) (g : Groups), i ≠ 0 → j ≠ 0 →
      groupLoop toLower i rows g = groupLoop toLower j rows g := by
  induction rows with
  | nil => intro i j g _ _; rfl
  | cons row rest ih =>
    intro i j g hi hj
    simp only [groupLoop]
    rw [groupRow_index toLower g i j row hi hj]
    exact ih (i + 1) (j + 1) _ (Nat.succ_ne_zero i) (Nat.succ_ne_zero j)

theorem groupLoop_append (toLower : String → String) (pre post : List (List String)) :
    ∀ (i : Nat) (g : Groups),
      groupLoop toLower i (pre ++ post) g
        = groupLoop toLower (i + pre.length) post (groupLoop toLower i pre g) := by
  induction pre with
  | nil => intro i g; simp [groupLoop]
  | cons row rest ih =>
    intro i g
    show groupLoop toLower (i + 1) (rest ++ post) (groupRow toLower g i row) = _
    rw [ih]
    simp only [groupLoop, List.length_cons]
    congr 1
    omega

theorem groupRow_cmsMap (toLower : String → String) (g : Groups) (i : Nat)
    (row : List String) :
    (groupRow toLower g i row).cmsMap =
      if i ≠ 0 ∧ 3 ≤ row.length ∧ trimSpace (row.getD 0 "") ≠ "" ∧
          toLower (trimSpace (row.getD 1 "")) ≠ ""
      then appendUrl g.cmsMap (toLower (trimSpace (row.getD 1 "")))
        (trimSpace (row.getD 0 ""))
      else g.cmsMap := by
  unfold groupRow
  dsimp only
  generalize trimSpace (row.getD 0 "") = u
  generalize toLower (trimSpace (row.getD 1 "")) = c
  generalize toLower (trimSpace (row.getD 2 "")) = s
  by_cases h1 : i = 0 ∨ row.length < 3
  · have : ¬ (i ≠ 0 ∧ 3 ≤ row.length ∧ u ≠ "" ∧ c ≠ "") := by
      rintro ⟨a, b, -⟩
      rcases h1 with h | h
      · exact a h
      · omega
    rw [if_pos h1, if_neg this]
  · have h1' : i ≠ 0 ∧ 3 ≤ row.length := by
      constructor
      · exact fun h => h1 (Or.inl h)
      · by_contra h
        exact h1 (Or.inr (by omega))
    rw [if_neg h1]
    by_cases h2 : u = ""
    · simp [h2]
    · by_cases h3 : c = ""
      · by_cases h4 : s = "" <;> simp [h2, h3, h4]
      · by_cases h4 : s = "" <;> simp [h1', h2, h3, h4]

theorem groupRow_serverMap (toLower : String → String) (g : Groups) (i : Nat)
    (row : List String) :
    (groupRow toLower g i row).serverMap =
      if i ≠ 0 ∧ 3 ≤ row.length ∧ trimSpace (row.getD 0 "") ≠ "" ∧
          toLower (trimSpace (row.getD 2 "")) ≠ ""
      then appendUrl g.serverMap (toLower (trimSpace (row.getD 2 "")))
        (trimSpace (row.getD 0 ""))
      else g.serverMap := by
  unfold groupRow
  dsimp only
  generalize trimSpace (row.getD 0 "") = u
  generalize toLower (trimSpace (row.getD 1 "")) = c
  generalize toLower (trimSpace (row.getD 2 "")) = s
  by_cases h1 : i = 0 ∨ row.length < 3
  · have : ¬ (i ≠ 0 ∧ 3 ≤ row.length ∧ u ≠ "" ∧ s ≠ "") := by
      rintro ⟨a, b, -⟩
      rcases h1 with h | h
      · exact a h
      · omega
    rw [if_pos h1, if_neg this]
  · have h1' : i ≠ 0 ∧ 3 ≤ row.length := by
      constructor
      · exact fun h => h1 (Or.inl h)
      · by_contra h
        exact h1 (Or.inr (by omega))
    rw [if_neg h1]
    by_cases h2 : u = ""
    · simp [h2]
    · by_cases h3 : c = ""
      · by_cases h4 : s = "" <;> simp [h1', h2, h3, h4]
      · by_cases h4 : s = "" <;> simp [h1', h2, h3, h4]

/-- The entry of a grouping after one more row, in terms of the described
contribution of that row. -/
theorem mapGet_rowStep (toLower : String → String) (m : GoMap (List String)) (i col : Nat)
    (row : List String) (k : String) (hi : i ≠ 0) (hk : k ≠ "") :
    mapGet [] (if i ≠ 0 ∧ 3 ≤ row.length ∧ trimSpace (row.getD 0 "") ≠ "" ∧
          toLower (trimSpace (row.getD col "")) ≠ ""
        then appendUrl m (toLower (trimSpace (row.getD col "")))
          (trimSpace (row.getD 0 ""))
        else m) k
      = mapGet [] m k ++ (rowUrlFor toLower col k row).toList := by
  unfold rowUrlFor
  by_cases h : 3 ≤ row.length ∧ trimSpace (row.getD 0 "") ≠ ""
  · obtain ⟨ha, hb⟩ := h
    by_cases hc : toLower (trimSpace (row.getD col "")) = k
    · have hne : toLower (trimSpace (row.getD col "")) ≠ "" := by rw [hc]; exact hk
      rw [if_pos ⟨hi, ha, hb, hne⟩, if_pos ⟨ha, hb, hc⟩, mapGet_appendUrl, if_pos hc]
      rfl
    · have hn : ¬ (3 ≤ row.length ∧ trimSpace (row.getD 0 "") ≠ "" ∧
          toLower (trimSpace (row.getD col "")) = k) := fun h => hc h.2.2
      rw [if_neg hn]
      by_cases hd : toLower (trimSpace (row.getD col "")) = ""
      · rw [if_neg (fun h => h.2.2.2 hd)]
        simp
      · rw [if_pos ⟨hi, ha, hb, hd⟩, mapGet_appendUrl, if_neg hc]
        simp
  · have hn : ¬ (3 ≤ row.length ∧ trimSpace (row.getD 0 "") ≠ "" ∧
        toLower (trimSpace (row.getD col "")) = k) := fun x => h ⟨x.1, x.2.1⟩
    have hm : ¬ (i ≠ 0 ∧ 3 ≤ row.length ∧ trimSpace (row.getD 0 "") ≠ "" ∧
        toLower (trimSpace (row.getD col "")) ≠ "") := fun x => h ⟨x.2.1, x.2.2.1⟩
    rw [if_neg hn, if_neg hm]
    simp

/-- The keys of a grouping after one more row. -/
theorem mapKeys_rowStep (toLower : String → String) (m : GoMap (List String)) (i col : Nat)
    (row : List String) (k : String) (hi : i ≠ 0) :
    k ∈ mapKeys (if i ≠ 0 ∧ 3 ≤ row.length ∧ trimSpace (row.getD 0 "") ≠ "" ∧
          toLower (trimSpace (row.getD col "")) ≠ ""
        then appendUrl m (toLower (trimSpace (row.getD col "")))
          (trimSpace (row.getD 0 ""))
        else m)
      ↔ k ∈ mapKeys m ∨ (k ≠ "" ∧ (rowUrlFor toLower col k row).isSome) := by
  unfold rowUrlFor
  by_cases h : 3 ≤ row.length ∧ trimSpace (row.getD 0 "") ≠ "" ∧
      toLower (trimSpace (row.getD col "")) ≠ ""
  · obtain ⟨ha, hb, hc⟩ := h
    rw [if_pos ⟨hi, ha, hb, hc⟩, mem_mapKeys_appendUrl]
    constructor
    · rintro (h | h)
      · right
        subst h
        refine ⟨hc, ?_⟩
        rw [if_pos ⟨ha, hb, rfl⟩]
        rfl
      · exact Or.inl h
    · rintro (h | ⟨_, h⟩)
      · exact Or.inr h
      · left
        by_cases hd : toLower (trimSpace (row.getD col "")) = k
        · exact hd.symm
        · rw [if_neg (fun x => hd x.2.2)] at h
          simp at h
  · rw [if_neg (fun x => h x.2)]
    constructor
    · exact Or.inl
    · rintro (hm | ⟨hk, hs⟩)
      · exact hm
      · exfalso
        by_cases hd : 3 ≤ row.length ∧ trimSpace (row.getD 0 "") ≠ "" ∧
            toLower (trimSpace (row.getD col "")) = k
        · exact h ⟨hd.1, hd.2.1, by rw [hd.2.2]; exact hk⟩
        · rw [if_neg hd] at hs
          simp at hs

theorem groupLoop_get (toLower : String → String) (rows : List (List String)) (k : String)
    (hk : k ≠ "") :
    ∀ (i : Nat) (g : Groups), i ≠ 0 →
      mapGet [] (groupLoop toLower i rows g).cmsMap k
          = mapGet [] g.cmsMap k ++ rows.filterMap (rowUrlFor toLower 1 k) ∧
      mapGet [] (groupLoop toLower i rows g).serverMap k
          = mapGet [] g.serverMap k ++ rows.filterMap (rowUrlFor toLower 2 k) := by
  induction rows with
  | nil => intro i g _; simp [groupLoop]
  | cons row rest ih =>
    intro i g hi
    obtain ⟨ih1, ih2⟩ := ih (i + 1) (groupRow toLower g i row) (Nat.succ_ne_zero i)
    simp only [groupLoop]
    rw [ih1, ih2, groupRow_cmsMap, groupRow_serverMap,
      mapGet_rowStep toLower g.cmsMap i 1 row k hi hk,
      mapGet_rowStep toLower g.serverMap i 2 row k hi hk]
    constructor
    · cases h : rowUrlFor toLower 1 k row <;> simp [List.filterMap_cons, h]
    · cases h : rowUrlFor toLower 2 k row <;> simp [List.filterMap_cons, h]

theorem groupLoop_keys (toLower : String → String) (rows : List (List String)) (k : String) :
    ∀ (i : Nat) (g : Groups), i ≠ 0 →
      (k ∈ mapKeys (groupLoop toLower i rows g).cmsMap
          ↔ k ∈ mapKeys g.cmsMap ∨
            (k ≠ "" ∧ rows.filterMap (rowUrlFor toLower 1 k) ≠ [])) ∧
      (k ∈ mapKeys (groupLoop toLower i rows g).serverMap
          ↔ k ∈ mapKeys g.serverMap ∨
            (k ≠ "" ∧ rows.filterMap (rowUrlFor toLower 2 k) ≠ [])) := by
  induction rows with
  | nil => intro i g _; simp [groupLoop]
  | cons row rest ih =>
    intro i g hi
    obtain ⟨ih1, ih2⟩ := ih (i + 1) (groupRow toLower g i row) (Nat.succ_ne_zero i)
    simp only [groupLoop]
    rw [ih1, ih2, groupRow_cmsMap, groupRow_serverMap,
      mapKeys_rowStep toLower g.cmsMap i 1 row k hi,
      mapKeys_rowStep toLower g.serverMap i 2 row k hi]
    constructor
    · cases h : rowUrlFor toLower 1 k row <;> (simp [List.filterMap_cons, h]; try tauto)
    · cases h : rowUrlFor toLower 2 k row <;> (simp [List.filterMap_cons, h]; try tauto)

theorem groupRows_cons (toLower : String → String) (hdr : List String)
    (rest : List (List String)) :
    groupRows toLower (hdr :: rest)
      = groupLoop toLower 1 rest { cmsMap := [], serverMap := [] } := by
  simp [groupRows, groupLoop, groupRow_header]

theorem groupLoop_nodup (toLower : String → String) (rows : List (List String)) :
    ∀ (i : Nat) (g : Groups), (mapKeys g.cmsMap).Nodup → (mapKeys g.serverMap).Nodup →
      (mapKeys (groupLoop toLower i rows g).cmsMap).Nodup ∧
      (mapKeys (groupLoop toLower i rows g).serverMap).Nodup := by
  induction rows with
  | nil => intro i g h1 h2; exact ⟨h1, h2⟩
  | cons row rest ih =>
    intro i g h1 h2
    simp only [groupLoop]
    apply ih
    · rw [groupRow_cmsMap]
      split
      · exact nodup_mapKeys_mapSet _ _ _ h1
      · exact h1
    · rw [groupRow_serverMap]
      split
      · exact nodup_mapKeys_mapSet _ _ _ h2
      · exact h2

theorem groupRows_nodup (toLower : String → String) (rows : List (List String)) :
    (mapKeys (groupRows toLower rows).cmsMap).Nodup ∧
    (mapKeys (groupRows toLower rows).serverMap).Nodup :=
  groupLoop_nodup toLower rows 0 _ (by simp [mapKeys]) (by simp [mapKeys])

/-! ## Claims on the grouping -/

/-- C4 (as stated, refuted): the row `["http://a", "", "nginx"]` has only 2 non-empty
cells, yet `main` appends its URL to the entry `nginx` of the server grouping. -/
theorem short_row_nonempty_cells_counterexample :
    nonEmptyCells ["http://a", "", "nginx"] < 3 ∧
    (groupRows asciiLower [["URL", "CMS", "Server"], ["http://a", "", "nginx"]]).serverMap
      = [("nginx", ["http://a"])] ∧
    groupRows asciiLower [["URL", "CMS", "Server"], ["http://a", "", "nginx"]]
      ≠ groupRows asciiLower [["URL", "CMS", "Server"], []] := by
  decide

/-- C4 (amended): a row with fewer than 3 cells is excluded from both groupings: the
groupings of a table are those of the table with that row emptied and, when the row is
not the first one, those of the table with that row deleted. -/
theorem short_rows_excluded (toLower : String → String) (before after : List (List String))
    (row : List String) (h : row.length < 3) :
    groupRows toLower (before ++ row :: after)
        = groupRows toLower (before ++ [] :: after) ∧
    (before ≠ [] →
      groupRows toLower (before ++ row :: after) = groupRows toLower (before ++ after)) := by
  constructor
  · unfold groupRows
    rw [groupLoop_append, groupLoop_append]
    simp only [groupLoop]
    rw [groupRow_short toLower _ _ row h, groupRow_short toLower _ _ [] (by simp)]
  · intro hne
    unfold groupRows
    rw [groupLoop_append, groupLoop_append]
    simp only [groupLoop]
    rw [groupRow_short toLower _ _ row h]
    apply groupLoop_index
    · omega
    · have : 0 < before.length := List.length_pos.mpr hne
      omega

/-- C4 (amended) at a table whose second row has 2 cells. -/
theorem short_rows_excluded_witness :
    ([ "http://a", "wordpress" ] : List String).length < 3 ∧
    groupRows asciiLower ([["URL", "CMS", "Server"]] ++ ["http://a", "wordpress"] ::
        [["http://b", "Joomla", "nginx"]])
      = groupRows asciiLower ([["URL", "CMS", "Server"]] ++ [] ::
        [["http://b", "Joomla", "nginx"]]) :=
  ⟨by decide,
    (short_rows_excluded asciiLower [["URL", "CMS", "Server"]] [["http://b", "Joomla", "nginx"]]
      ["http://a", "wordpress"] (by decide)).1⟩

/-- C5: for every table and key `k`, the entry of the CMS grouping under a non-empty `k`
is the list, in row order with repeats, of the trimmed URLs of the rows after the header
that have at least 3 cells, a non-empty trimmed URL and trimmed lower-cased column 2
equal to `k`; the same for the server grouping with column 3; the keys of a grouping are
exactly the non-empty `k` with a non-empty such list, so the empty string is no key, and
no key has two entries. -/
theorem grouping_entries_exact (toLower : String → String) (rows : List (List String))
    (k : String) :
    (k ≠ "" →
      mapGet [] (groupRows toLower rows).cmsMap k = groupingSpec toLower 1 rows k ∧
      mapGet [] (groupRows toLower rows).serverMap k = groupingSpec toLower 2 rows k) ∧
    (k ∈ mapKeys (groupRows toLower rows).cmsMap
      ↔ k ≠ "" ∧ groupingSpec toLower 1 rows k ≠ []) ∧
    (k ∈ mapKeys (groupRows toLower rows).serverMap
      ↔ k ≠ "" ∧ groupingSpec toLower 2 rows k ≠ []) ∧
    "" ∉ mapKeys (groupRows toLower rows).cmsMap ∧
    "" ∉ mapKeys (groupRows toLower rows).serverMap ∧
    (mapKeys (groupRows toLower rows).cmsMap).Nodup ∧
    (mapKeys (groupRows toLower rows).serverMap).Nodup := by
  have hnd := groupRows_nodup toLower rows
  cases rows with
  | nil => simp [groupRows, groupLoop, groupingSpec, mapGet, mapFind, mapKeys]
  | cons hdr rest =>
    have hkeys := fun k' => groupLoop_keys toLower rest k' 1
      { cmsMap := [], serverMap := [] } (by decide)
    refine ⟨?_, ?_, ?_, ?_, ?_, hnd.1, hnd.2⟩
    · intro hk
      rw [groupRows_cons]
      have hget := groupLoop_get toLower rest k hk 1
        { cmsMap := [], serverMap := [] } (by decide)
      simpa [groupingSpec, mapGet, mapFind] using hget
    · rw [groupRows_cons]
      simpa [groupingSpec, mapKeys] using (hkeys k).1
    · rw [groupRows_cons]
      simpa [groupingSpec, mapKeys] using (hkeys k).2
    · rw [groupRows_cons]
      simpa [mapKeys] using (hkeys "").1
    · rw [groupRows_cons]
      simpa [mapKeys] using (hkeys "").2

/-- C5 at a table with 3 data rows and the key `wordpress`. -/
theorem grouping_entries_exact_witness :
    ("wordpress" : String) ≠ "" ∧
    mapGet [] (groupRows asciiLower [["URL", "CMS", "Server"],
        [" http://a ", "WordPress", "nginx"], ["http://b", "joomla", "Apache"],
        ["http://a", " wordpress", ""]]).cmsMap "wordpress"
      = groupingSpec asciiLower 1 [["URL", "CMS", "Server"],
        [" http://a ", "WordPress", "nginx"], ["http://b", "joomla", "Apache"],
        ["http://a", " wordpress", ""]] "wordpress" :=
  ⟨by decide,
    ((grouping_entries_exact asciiLower [["URL", "CMS", "Server"],
        [" http://a ", "WordPress", "nginx"], ["http://b", "joomla", "Apache"],
        ["http://a", " wordpress", ""]] "wordpress").1 (by decide)).1⟩

/-! ## The check resolver -/

theorem resolveChecks_eq (store : Store) (remote : String → Option (List String))
    (toLower : String → String) (keyword : String) :
    resolveChecks store remote toLower keyword
      = findYAMLs store (searchRealCVE remote keyword)
        ++ (findCNVDYAMLs store toLower keyword ++ findKeywordYAMLs store toLower keyword) := by
  simp [resolveChecks, List.append_assoc]

/-- C1 (as stated, refuted): with the single file `poc/cve/CNVD-2021-1111-nginx.yaml` in
the store and the keyword `nginx`, sources B and C both select that file and the check
list holds it twice. -/
theorem resolved_checks_duplicate_counterexample :
    resolveChecks (storeOfCveFiles ["CNVD-2021-1111-nginx.yaml"]) (fun _ => none)
        asciiLower "nginx"
      = ["poc/cve/CNVD-2021-1111-nginx.yaml", "poc/cve/CNVD-2021-1111-nginx.yaml"] ∧
    ¬ (resolveChecks (storeOfCveFiles ["CNVD-2021-1111-nginx.yaml"]) (fun _ => none)
        asciiLower "nginx").Nodup := by
  decide

/-- C1 (amended): the check list of a keyword is the concatenation of sources A, B and
C in that order: a check occurs in it exactly when it occurs in one of the sources, and
as many times as it occurs in the three sources together. -/
theorem resolved_checks_concat (store : Store) (remote : String → Option (List String))
    (toLower : String → String) (keyword c : String) :
    resolveChecks store remote toLower keyword
      = findYAMLs store (searchRealCVE remote keyword)
        ++ findCNVDYAMLs store toLower keyword ++ findKeywordYAMLs store toLower keyword ∧
    (c ∈ resolveChecks store remote toLower keyword ↔
      c ∈ findYAMLs store (searchRealCVE remote keyword) ∨
      c ∈ findCNVDYAMLs store toLower keyword ∨
      c ∈ findKeywordYAMLs store toLower keyword) ∧
    (resolveChecks store remote toLower keyword).count c
      = (findYAMLs store (searchRealCVE remote keyword)).count c
        + (findCNVDYAMLs store toLower keyword).count c
        + (findKeywordYAMLs store toLower keyword).count c := by
  rw [resolveChecks_eq]
  refine ⟨by simp, ?_, ?_⟩
  · simp only [List.mem_append]
  · simp only [List.count_append]
    omega

/-- C7: for a fixed store, the check list resolved with the remote search unreachable
is contained in (is the tail end of) the check list resolved with any answer of the remote
search, and sources B and C contribute the same entries to both. -/
theorem resolve_unreachable_subset (store : Store)
    (remote : String → Option (List String)) (toLower : String → String)
    (keyword : String) :
    (∀ c, c ∈ resolveChecks store (fun _ => none) toLower keyword →
      c ∈ resolveChecks store remote toLower keyword) ∧
    (resolveChecks store (fun _ => none) toLower keyword
      <:+ resolveChecks store remote toLower keyword) ∧
    resolveChecks store (fun _ => none) toLower keyword
      = findCNVDYAMLs store toLower keyword ++ findKeywordYAMLs store toLower keyword ∧
    resolveChecks store remote toLower keyword
      = findYAMLs store (searchRealCVE remote keyword)
        ++ (findCNVDYAMLs store toLower keyword
          ++ findKeywordYAMLs store toLower keyword) := by
  have hdown : resolveChecks store (fun _ => none) toLower keyword
      = findCNVDYAMLs store toLower keyword ++ findKeywordYAMLs store toLower keyword := by
    rw [resolveChecks_eq]
    simp [searchRealCVE, findYAMLs]
  have hup := resolveChecks_eq store remote toLower keyword
  refine ⟨?_, ?_, hdown, hup⟩
  · intro c hc
    rw [hup]
    rw [hdown] at hc
    exact List.mem_append_right _ hc
  · rw [hup, hdown]
    exact List.suffix_append _ _

/-! ## The dispatcher -/

theorem count_tasksForUrl (url u p : String) (pocs : List String) :
    (tasksForUrl url pocs).count (u, p) = if url = u then pocs.count p else 0 := by
  induction pocs with
  | nil => simp [tasksForUrl]
  | cons q rest ih =>
    simp only [tasksForUrl, List.count_cons, ih]
    by_cases h1 : url = u
    · subst h1
      by_cases h2 : q = p <;> simp [h2]
    · simp [h1]

theorem count_tasksForUrls (u p : String) (pocs urls : List String) :
    (tasksForUrls pocs urls).count (u, p) = urls.count u * pocs.count p := by
  induction urls with
  | nil => simp [tasksForUrls]
  | cons url rest ih =>
    simp only [tasksForUrls, List.count_append, count_tasksForUrl, ih, List.count_cons]
    by_cases h1 : url = u
    · subst h1
      simp
      ring
    · simp [h1]

theorem count_scheduleTasks (u p : String) (urls pocs : List String) :
    (scheduleTasks urls pocs).count (u, p) = urls.count u * pocs.count p := by
  unfold scheduleTasks
  split
  · rename_i h
    have : pocs = [] := List.length_eq_zero.mp h
    subst this
    simp
  · exact count_tasksForUrls u p pocs urls

theorem scanGrouped_entry (store : Store) (remote : String → Option (List String))
    (toLower : String → String) (group : GoMap (List String))
    (h : (mapKeys group).Nodup) (entry : String × List (String × String))
    (he : entry ∈ scanGrouped store remote toLower group) :
    entry.1 ∈ mapKeys group ∧
    entry.2 = groupTasks store remote toLower group entry.1 := by
  unfold scanGrouped at he
  obtain ⟨kv, hkv, rfl⟩ := List.mem_map.mp he
  obtain ⟨k, urls⟩ := kv
  refine ⟨List.mem_map.mpr ⟨(k, urls), hkv, rfl⟩, ?_⟩
  unfold groupTasks mapGet
  rw [mapFind_of_mem group k urls h hkv]
  rfl

theorem beq_pair_instances (y x : String × String) :
    (@BEq.beq _ instBEqOfDecidableEq y x) = (@BEq.beq _ instBEqProd y x) := by
  obtain ⟨a, b⟩ := y
  obtain ⟨c, d⟩ := x
  show decide ((a, b) = (c, d)) = (a == c && b == d)
  by_cases ha : a = c <;> by_cases hb : b = d <;> simp [ha, hb]

theorem count_pair_instances (l : List (String × String)) (x : String × String) :
    @List.count _ instBEqOfDecidableEq x l = @List.count _ instBEqProd x l := by
  induction l with
  | nil => rfl
  | cons y rest ih =>
    rw [@List.count_cons _ instBEqOfDecidableEq, @List.count_cons _ instBEqProd, ih,
      beq_pair_instances]

theorem nodup_scheduleTasks_iff (urls pocs : List String) :
    (scheduleTasks urls pocs).Nodup ↔ urls = [] ∨ pocs = [] ∨ (urls.Nodup ∧ pocs.Nodup) := by
  rw [List.nodup_iff_count_le_one]
  constructor
  · intro h
    cases urls with
    | nil => exact Or.inl rfl
    | cons u0 us =>
      cases pocs with
      | nil => exact Or.inr (Or.inl rfl)
      | cons p0 ps =>
        right; right
        constructor
        · rw [List.nodup_iff_count_le_one]
          intro u
          have h1 := h (u, p0)
          rw [count_pair_instances, count_scheduleTasks] at h1
          have h2 : 1 ≤ (p0 :: ps).count p0 := by simp
          calc (u0 :: us).count u = (u0 :: us).count u * 1 := (Nat.mul_one _).symm
            _ ≤ (u0 :: us).count u * (p0 :: ps).count p0 := Nat.mul_le_mul_left _ h2
            _ ≤ 1 := h1
        · rw [List.nodup_iff_count_le_one]
          intro p
          have h1 := h (u0, p)
          rw [count_pair_instances, count_scheduleTasks] at h1
          have h2 : 1 ≤ (u0 :: us).count u0 := by simp
          calc (p0 :: ps).count p = 1 * (p0 :: ps).count p := (Nat.one_mul _).symm
            _ ≤ (u0 :: us).count u0 * (p0 :: ps).count p := Nat.mul_le_mul_right _ h2
            _ ≤ 1 := h1
  · intro h x
    obtain ⟨u, p⟩ := x
    rw [count_pair_instances, count_scheduleTasks]
    rcases h with h | h | ⟨h1, h2⟩
    · subst h; simp
    · subst h; simp
    · have a := List.nodup_iff_count_le_one.mp h1 u
      have b := List.nodup_iff_count_le_one.mp h2 p
      calc urls.count u * pocs.count p ≤ 1 * 1 := Nat.mul_le_mul a b
        _ = 1 := rfl

/-- C2 (as stated, refuted): the URL `http://a` occurs in two rows with the CMS label
`wordpress`; with one matching check in the store, `scanGrouped` starts the same
`(URL, check)` task twice for that fingerprint. -/
theorem duplicate_task_counterexample :
    groupTasks (storeOfCveFiles ["wordpress-login.yaml"]) (fun _ => none) asciiLower
        (groupRows asciiLower [["URL", "CMS", "Server"],
          ["http://a", "WordPress", "nginx"], ["http://a", "WordPress", "nginx"]]).cmsMap
        "wordpress"
      = [("http://a", "poc/cve/wordpress-login.yaml"),
         ("http://a", "poc/cve/wordpress-login.yaml")] ∧
    ¬ (groupTasks (storeOfCveFiles ["wordpress-login.yaml"]) (fun _ => none) asciiLower
        (groupRows asciiLower [["URL", "CMS", "Server"],
          ["http://a", "WordPress", "nginx"], ["http://a", "WordPress", "nginx"]]).cmsMap
        "wordpress").Nodup := by
  decide

/-- C2 (amended): for every table and fingerprint `k` of either grouping, the tasks
`scanGrouped` starts for `k` hold the pair `(u, p)` as many times as `u` occurs in the
URL list of `k` times as `p` occurs in the check list of `k`; hence no pair is started
twice exactly when one of the two lists is empty or both are free of repeats. These are
the tasks `scanGrouped` lists under the entry of `k`. -/
theorem tasks_count_product (store : Store) (remote : String → Option (List String))
    (toLower : String → String) (rows : List (List String)) (k u p : String) :
    (groupTasks store remote toLower (groupRows toLower rows).cmsMap k).count (u, p)
      = (mapGet [] (groupRows toLower rows).cmsMap k).count u
        * (resolveChecks store remote toLower k).count p ∧
    (groupTasks store remote toLower (groupRows toLower rows).serverMap k).count (u, p)
      = (mapGet [] (groupRows toLower rows).serverMap k).count u
        * (resolveChecks store remote toLower k).count p ∧
    ((groupTasks store remote toLower (groupRows toLower rows).cmsMap k).Nodup ↔
      mapGet [] (groupRows toLower rows).cmsMap k = [] ∨
      resolveChecks store remote toLower k = [] ∨
      ((mapGet [] (groupRows toLower rows).cmsMap k).Nodup ∧
        (resolveChecks store remote toLower k).Nodup)) ∧
    ((groupTasks store remote toLower (groupRows toLower rows).serverMap k).Nodup ↔
      mapGet [] (groupRows toLower rows).serverMap k = [] ∨
      resolveChecks store remote toLower k = [] ∨
      ((mapGet [] (groupRows toLower rows).serverMap k).Nodup ∧
        (resolveChecks store remote toLower k).Nodup)) ∧
    (∀ entry, entry ∈ scanGrouped store remote toLower (groupRows toLower rows).cmsMap →
      entry.2 = groupTasks store remote toLower (groupRows toLower rows).cmsMap entry.1) ∧
    (∀ entry, entry ∈ scanGrouped store remote toLower (groupRows toLower rows).serverMap →
      entry.2
        = groupTasks store remote toLower (groupRows toLower rows).serverMap entry.1) := by
  refine ⟨?_, ?_, ?_, ?_, ?_, ?_⟩
  · exact count_scheduleTasks _ _ _ _
  · exact count_scheduleTasks _ _ _ _
  · exact nodup_scheduleTasks_iff _ _
  · exact nodup_scheduleTasks_iff _ _
  · intro entry he
    exact (scanGrouped_entry store remote toLower _ (groupRows_nodup toLower rows).1 entry he).2
  · intro entry he
    exact (scanGrouped_entry store remote toLower _ (groupRows_nodup toLower rows).2 entry he).2

/-- C2 (amended) at the table with the URL `http://a` in two rows: the pair is started
`2 * 1` times. -/
theorem tasks_count_product_witness :
    (groupTasks (storeOfCveFiles ["wordpress-login.yaml"]) (fun _ => none) asciiLower
        (groupRows asciiLower [["URL", "CMS", "Server"],
          ["http://a", "WordPress", "nginx"], ["http://a", "WordPress", "nginx"]]).cmsMap
        "wordpress").count ("http://a", "poc/cve/wordpress-login.yaml") = 2 :=
  (tasks_count_product (storeOfCveFiles ["wordpress-login.yaml"]) (fun _ => none) asciiLower
    [["URL", "CMS", "Server"], ["http://a", "WordPress", "nginx"],
      ["http://a", "WordPress", "nginx"]]
    "wordpress" "http://a" "poc/cve/wordpress-login.yaml").1.trans (by decide)

/-! ## The admission limiter -/

theorem count_set_of_get (l : List Pc) (a c x : Pc) :
    ∀ (i : Nat), l.get? i = some a →
      (l.set i c).count x + (if a = x then 1 else 0)
        = l.count x + (if c = x then 1 else 0) := by
  induction l with
  | nil => intro i h; simp at h
  | cons y rest ih =>
    intro i h
    cases i with
    | zero =>
      simp only [List.get?_cons_zero, Option.some.injEq] at h
      subst h
      simp only [List.set_cons_zero, List.count_cons, beq_iff_eq]
      omega
    | succ j =>
      simp only [List.get?_cons_succ] at h
      have := ih j h
      simp only [List.set_cons_succ, List.count_cons]
      omega

/-- The invariant of the limiter: the tokens in the channel are exactly those of the
goroutines between their send and their receive, and they number at most 10. -/
theorem step_invariant (s s' : Sched) (a : Action) (hs : step s a = some s')
    (hinv : tokenHolders s = s.sem ∧ s.sem ≤ semCapacity) :
    tokenHolders s' = s'.sem ∧ s'.sem ≤ semCapacity := by
  obtain ⟨h1, h2⟩ := hinv
  unfold tokenHolders at *
  cases a with
  | spawn =>
    simp only [step, Option.some.injEq] at hs
    subst hs
    simp [List.count_append, List.count_cons, h1, h2]
  | acquire i =>
    simp only [step] at hs
    split at hs
    · rename_i hc
      simp only [Option.some.injEq] at hs
      subst hs
      have e1 := count_set_of_get s.tasks Pc.waiting Pc.scanning Pc.scanning i hc.1
      have e2 := count_set_of_get s.tasks Pc.waiting Pc.scanning Pc.scanned i hc.1
      simp at e1 e2
      have := hc.2
      simp only
      constructor <;> omega
    · simp at hs
  | scanReturn i =>
    simp only [step] at hs
    split at hs
    · rename_i hc
      simp only [Option.some.injEq] at hs
      subst hs
      have e1 := count_set_of_get s.tasks Pc.scanning Pc.scanned Pc.scanning i hc
      have e2 := count_set_of_get s.tasks Pc.scanning Pc.scanned Pc.scanned i hc
      simp at e1 e2
      simp only
      constructor <;> omega
    · simp at hs
  | release i =>
    simp only [step] at hs
    split at hs
    · rename_i hc
      simp only [Option.some.injEq] at hs
      subst hs
      have e1 := count_set_of_get s.tasks Pc.scanned Pc.finished Pc.scanning i hc.1
      have e2 := count_set_of_get s.tasks Pc.scanned Pc.finished Pc.scanned i hc.1
      simp at e1 e2
      have := hc.2
      simp only
      constructor <;> omega
    · simp at hs

theorem run_invariant (actions : List Action) :
    ∀ (s s' : Sched), run s actions = some s' →
      (tokenHolders s = s.sem ∧ s.sem ≤ semCapacity) →
      (tokenHolders s' = s'.sem ∧ s'.sem ≤ semCapacity) := by
  induction actions with
  | nil =>
    intro s s' h hinv
    simp only [run, Option.some.injEq] at h
    subst h
    exact hinv
  | cons a rest ih =>
    intro s s' h hinv
    simp only [run] at h
    cases hstep : step s a with
    | none => rw [hstep] at h; simp at h
    | some s1 =>
      rw [hstep] at h
      exact ih s1 s' h (step_invariant s s1 a hstep hinv)

/-- C3: in every state reached from program start by any interleaving of goroutine
starts, sends on `semaphore`, returns of `runNucleiScan` and receives from `semaphore`,
at most 10 calls of `runNucleiScan` are in flight; every goroutine between its send and
its receive accounts for one token of the one shared channel, whose buffer never holds
more than 10. -/
theorem in_flight_at_most_ten (actions : List Action) (s : Sched)
    (h : run initSched actions = some s) :
    inFlight s ≤ 10 ∧ tokenHolders s = s.sem ∧ s.sem ≤ 10 := by
  have hinv := run_invariant actions initSched s h (by decide)
  refine ⟨?_, hinv.1, hinv.2⟩
  have h1 := hinv.1
  have h2 : s.sem ≤ 10 := hinv.2
  unfold tokenHolders at h1
  unfold inFlight
  omega

/-- C3 at the interleaving that starts 11 goroutines and lets 10 of them complete
their send. -/
theorem in_flight_at_most_ten_witness :
    run initSched (List.replicate 11 Action.spawn ++ (List.range 10).map Action.acquire)
      = some { sem := 10, tasks := List.replicate 10 Pc.scanning ++ [Pc.waiting] } ∧
    inFlight { sem := 10, tasks := List.replicate 10 Pc.scanning ++ [Pc.waiting] } ≤ 10 :=
  ⟨by decide,
    (in_flight_at_most_ten
      (List.replicate 11 Action.spawn ++ (List.range 10).map Action.acquire)
      { sem := 10, tasks := List.replicate 10 Pc.scanning ++ [Pc.waiting] }
      (by decide)).1⟩

/-- With 10 scans in flight the eleventh goroutine cannot complete its send: the bound
of 10 is attained and enforced. -/
theorem eleventh_task_blocked :
    inFlight { sem := 10, tasks := List.replicate 10 Pc.scanning ++ [Pc.waiting] } = 10 ∧
    step { sem := 10, tasks := List.replicate 10 Pc.scanning ++ [Pc.waiting] }
      (Action.acquire 10) = none := by
  decide

/-! ## The result aggregator -/

theorem parseLine_eq (gjsonGet : String → String → String) (results : List Result)
    (line : String) :
    parseLine gjsonGet results line
      = results ++ (if isFindingLine gjsonGet line = true
          then [findingOfLine gjsonGet line] else []) := by
  unfold parseLine isFindingLine findingOfLine
  by_cases h1 : trimSpace line = ""
  · simp [h1]
  · by_cases h2 : gjsonGet line "host" ≠ "" ∧ gjsonGet line "template-id" ≠ ""
    · have h3 : trimSpace line ≠ "" ∧ gjsonGet line "host" ≠ "" ∧
          gjsonGet line "template-id" ≠ "" := ⟨h1, h2⟩
      simp only [h1, if_false, decide_eq_true_eq]
      rw [if_pos h2, if_pos h3]
    · have h3 : ¬ (trimSpace line ≠ "" ∧ gjsonGet line "host" ≠ "" ∧
          gjsonGet line "template-id" ≠ "") := fun h => h2 h.2
      simp only [h1, if_false, decide_eq_true_eq]
      rw [if_neg h2, if_neg h3, List.append_nil]

theorem foldl_parseLine (gjsonGet : String → String → String) (lines : List String) :
    ∀ results : List Result,
      lines.foldl (parseLine gjsonGet) results
        = results ++ (lines.filter (isFindingLine gjsonGet)).map (findingOfLine gjsonGet) := by
  induction lines with
  | nil => intro results; simp
  | cons line rest ih =>
    intro results
    rw [List.foldl_cons, ih, parseLine_eq]
    by_cases h : isFindingLine gjsonGet line = true
    · simp [h, List.filter_cons]
    · simp [h, List.filter_cons]

theorem foldl_parseFile (gjsonGet : String → String → String) (files : List String) :
    ∀ results : List Result,
      files.foldl (parseFile gjsonGet) results = results ++ findingsSpec gjsonGet files := by
  induction files with
  | nil => intro results; simp [findingsSpec]
  | cons data rest ih =>
    intro results
    rw [List.foldl_cons, ih]
    unfold parseFile
    rw [foldl_parseLine]
    simp [findingsSpec, List.flatMap_cons, List.filter_append, List.map_append,
      List.append_assoc]

/-- C6 (as stated, refuted): the line `sampleMalformedLine` is not a well-formed record
(text precedes its opening brace and it has no closing brace), yet gjson reads a host and
a template id from it and `parseAllNucleiResults` appends a finding for it. -/
theorem malformed_line_counterexample :
    enclosedInBraces sampleMalformedLine = false ∧
    parseAllNucleiResults sampleGjsonGet [sampleMalformedLine] []
      = [{ URL := "http://a:80", PoC := "CVE-2021-1111", Template := "CVE-2021-1111",
           Severity := "" }] := by
  decide

/-- C6 (amended): `parseAllNucleiResults` appends to `results` exactly one finding for
each line that is not blank and from which a non-empty host and a non-empty template id
are read (URL = host, PoC = Template = template id, Severity = `info.severity` as read,
empty when absent), in file order then line order, whether or not the line is
well-formed; a blank line and a line from which no host or no template id is read append
nothing and the lines after them are still processed. In particular a file holding the
record line of the example and a line that yields no host gives exactly the one finding
of the record line. -/
theorem aggregation_exact (gjsonGet : String → String → String) (files : List String)
    (results : List Result) :
    parseAllNucleiResults gjsonGet files results
      = results ++ findingsSpec gjsonGet files ∧
    (∀ line : String,
      (trimSpace line = "" ∨ gjsonGet line "host" = "" ∨ gjsonGet line "template-id" = "") →
      parseLine gjsonGet results line = results) ∧
    (gjsonGet sampleRecordLine "host" = "http://a:80" →
      gjsonGet sampleRecordLine "template-id" = "CVE-2021-1111" →
      gjsonGet sampleRecordLine "info.severity" = "high" →
      gjsonGet sampleBadLine "host" = "" →
      parseAllNucleiResults gjsonGet [sampleArtifact] []
        = [{ URL := "http://a:80", PoC := "CVE-2021-1111", Template := "CVE-2021-1111",
             Severity := "high" }]) := by
  have main : ∀ fs rs, parseAllNucleiResults gjsonGet fs rs
      = rs ++ findingsSpec gjsonGet fs := fun fs rs => foldl_parseFile gjsonGet fs rs
  refine ⟨main files results, ?_, ?_⟩
  · intro line h
    rw [parseLine_eq]
    have : isFindingLine gjsonGet line = false := by
      unfold isFindingLine
      rw [decide_eq_false_iff_not]
      rintro ⟨a, b, c⟩
      rcases h with h | h | h
      · exact a h
      · exact b h
      · exact c h
    simp [this]
  · intro h1 h2 h3 h4
    rw [main]
    have hsplit : splitLines sampleArtifact = [sampleRecordLine, sampleBadLine, ""] := by
      decide
    have ht : trimSpace sampleRecordLine ≠ "" := by decide
    have hb : trimSpace "" = "" := by decide
    simp [findingsSpec, hsplit, List.filter_cons, isFindingLine, findingOfLine, h1, h2, h3,
      h4, ht, hb]

/-- C6 at the example: the accessor table `sampleGjsonGet` meets the 4 conditions and
the artifact file yields the one finding. -/
theorem aggregation_exact_witness :
    sampleGjsonGet sampleBadLine "host" = "" ∧
    parseAllNucleiResults sampleGjsonGet [sampleArtifact] []
      = [{ URL := "http://a:80", PoC := "CVE-2021-1111", Template := "CVE-2021-1111",
           Severity := "high" }] :=
  ⟨by decide,
    (aggregation_exact sampleGjsonGet [] []).2.2 (by decide) (by decide) (by decide)
      (by decide)⟩

/-! ## Decimal cell names -/

theorem digitChar_value (d : Nat) (h : d < 10) : (Nat.digitChar d).toNat - 48 = d := by
  interval_cases d <;> rfl

theorem foldl_toDigitsCore (fuel : Nat) :
    ∀ (n : Nat) (ds : List Char), n < fuel →
      (Nat.toDigitsCore 10 fuel n ds).foldl (fun acc c => acc * 10 + (c.toNat - 48)) 0
        = ds.foldl (fun acc c => acc * 10 + (c.toNat - 48)) n := by
  induction fuel with
  | zero => intro n ds h; omega
  | succ fuel ih =>
    intro n ds h
    unfold Nat.toDigitsCore
    by_cases h0 : n / 10 = 0
    · have hlt : n < 10 := by omega
      simp only [h0, if_true, List.foldl_cons, Nat.zero_mul, Nat.zero_add]
      rw [digitChar_value _ (Nat.mod_lt _ (by decide)), Nat.mod_eq_of_lt hlt]
    · simp only [h0, if_false]
      rw [ih (n / 10) _ (by omega)]
      simp only [List.foldl_cons]
      rw [digitChar_value _ (Nat.mod_lt _ (by decide))]
      congr 1
      omega

theorem decValue_repr (n : Nat) : decValue (Nat.repr n).data = n := by
  unfold decValue Nat.repr Nat.toDigits
  show List.foldl _ 0 (Nat.toDigitsCore 10 (n + 1) n []) = n
  rw [foldl_toDigitsCore (n + 1) n [] (by omega)]
  rfl

theorem repr_injective (a b : Nat) (h : Nat.repr a = Nat.repr b) : a = b := by
  have := congrArg (fun s => decValue s.data) h
  simpa [decValue_repr] using this

theorem cellName_inj (x y : Char) (a b : Nat)
    (h : cellName (String.mk [x]) a = cellName (String.mk [y]) b) : x = y ∧ a = b := by
  unfold cellName at h
  have hd := congrArg String.data h
  simp only [String.data_append, List.singleton_append, List.cons.injEq] at hd
  refine ⟨hd.1, repr_injective a b ?_⟩
  exact String.ext hd.2

theorem rowCells_disjoint (k : String) (a b : Nat) (ha : k ∈ rowCells a)
    (hb : k ∈ rowCells b) : a = b := by
  simp only [rowCells, List.mem_cons, List.mem_singleton, List.not_mem_nil, or_false] at ha hb
  rcases ha with ha | ha | ha | ha <;> rcases hb with hb | hb | hb | hb <;>
    exact (cellName_inj _ _ a b (ha.symm.trans hb)).2

/-! ## The report emitter -/

theorem cellName_ne_col (x y : Char) (a b : Nat) (h : x ≠ y) :
    cellName (String.mk [x]) a ≠ cellName (String.mk [y]) b :=
  fun e => h (cellName_inj x y a b e).1

theorem cellRow_cellName (x : Char) (r : Nat) : cellRow (cellName (String.mk [x]) r) = r := by
  unfold cellRow cellName
  simp only [String.data_append, List.singleton_append, List.drop_succ_cons, List.drop_zero]
  exact decValue_repr r

theorem cellText_short (v : String) (h : v.length ≤ 32767) : cellText v = v := by
  unfold cellText
  rw [if_neg (by omega)]

theorem cellText_length (v : String) : (cellText v).length ≤ 32767 := by
  unfold cellText
  split
  · show (List.take 32767 v.data).length ≤ 32767
    rw [List.length_take]
    exact Nat.min_le_left _ _
  · omega

theorem setCellValue_cellName (m : GoMap String) (x : Char) (r : Nat) (v : String) :
    setCellValue m (cellName (String.mk [x]) r) v
      = if r > 1048576 then m else mapSet m (cellName (String.mk [x]) r) (cellText v) := by
  unfold setCellValue
  rw [cellRow_cellName]

/-- A row past the last sheet row is not written; any other row is stored cell by
cell. -/
theorem writeRow_eq (m : GoMap String) (i : Nat) (r : Result) :
    writeRow m i r = if i + 2 > 1048576 then m else storeRow m i r := by
  unfold writeRow storeRow
  dsimp only
  have hA := fun m' v => setCellValue_cellName m' 'A' (i + 2) v
  have hB := fun m' v => setCellValue_cellName m' 'B' (i + 2) v
  have hC := fun m' v => setCellValue_cellName m' 'C' (i + 2) v
  have hD := fun m' v => setCellValue_cellName m' 'D' (i + 2) v
  show setCellValue (setCellValue (setCellValue (setCellValue m
      (cellName (String.mk ['A']) (i + 2)) r.URL) (cellName (String.mk ['B']) (i + 2)) r.PoC)
      (cellName (String.mk ['C']) (i + 2)) r.Template)
      (cellName (String.mk ['D']) (i + 2)) r.Severity = _
  rw [hA, hB, hC, hD]
  by_cases h : i + 2 > 1048576
  · simp only [h, if_true]
  · simp only [h, if_false]

theorem mapFind_storeRow_other (m : GoMap String) (i : Nat) (r : Result) (k : String)
    (h : k ∉ rowCells (i + 2)) : mapFind (storeRow m i r) k = mapFind m k := by
  simp only [rowCells, List.mem_cons, List.mem_singleton, List.not_mem_nil, or_false,
    not_or] at h
  obtain ⟨ha, hb, hc, hd⟩ := h
  unfold storeRow
  simp only [mapFind_mapSet]
  rw [if_neg (fun e => hd e.symm), if_neg (fun e => hc e.symm), if_neg (fun e => hb e.symm),
    if_neg (fun e => ha e.symm)]

theorem mapFind_writeRow_other (m : GoMap String) (i : Nat) (r : Result) (k : String)
    (h : k ∉ rowCells (i + 2)) : mapFind (writeRow m i r) k = mapFind m k := by
  rw [writeRow_eq]
  split
  · rfl
  · exact mapFind_storeRow_other m i r k h

theorem mapFind_storeRow_row (m : GoMap String) (i : Nat) (r : Result) :
    mapFind (storeRow m i r) (cellName "A" (i + 2)) = some (cellText r.URL) ∧
    mapFind (storeRow m i r) (cellName "B" (i + 2)) = some (cellText r.PoC) ∧
    mapFind (storeRow m i r) (cellName "C" (i + 2)) = some (cellText r.Template) ∧
    mapFind (storeRow m i r) (cellName "D" (i + 2)) = some (cellText r.Severity) := by
  unfold storeRow
  rw [mapFind_mapSet, mapFind_mapSet, mapFind_mapSet, mapFind_mapSet,
    mapFind_mapSet, mapFind_mapSet, mapFind_mapSet, mapFind_mapSet,
    mapFind_mapSet, mapFind_mapSet, mapFind_mapSet, mapFind_mapSet,
    mapFind_mapSet, mapFind_mapSet, mapFind_mapSet, mapFind_mapSet]
  have hDA : cellName "D" (i + 2) ≠ cellName "A" (i + 2) :=
    cellName_ne_col 'D' 'A' (i + 2) (i + 2) (by decide)
  have hDB : cellName "D" (i + 2) ≠ cellName "B" (i + 2) :=
    cellName_ne_col 'D' 'B' (i + 2) (i + 2) (by decide)
  have hDC : cellName "D" (i + 2) ≠ cellName "C" (i + 2) :=
    cellName_ne_col 'D' 'C' (i + 2) (i + 2) (by decide)
  have hCA : cellName "C" (i + 2) ≠ cellName "A" (i + 2) :=
    cellName_ne_col 'C' 'A' (i + 2) (i + 2) (by decide)
  have hCB : cellName "C" (i + 2) ≠ cellName "B" (i + 2) :=
    cellName_ne_col 'C' 'B' (i + 2) (i + 2) (by decide)
  have hBA : cellName "B" (i + 2) ≠ cellName "A" (i + 2) :=
    cellName_ne_col 'B' 'A' (i + 2) (i + 2) (by decide)
  refine ⟨?_, ?_, ?_, ?_⟩
  · rw [if_neg hDA, if_neg hCA, if_neg hBA, if_pos rfl]
  · rw [if_neg hDB, if_neg hCB, if_pos rfl]
  · rw [if_neg hDC, if_pos rfl]
  · rw [if_pos rfl]

theorem mem_mapKeys_writeRow (m : GoMap String) (i : Nat) (r : Result) (k : String) :
    k ∈ mapKeys (writeRow m i r) ↔
      k ∈ mapKeys m ∨ (i + 2 ≤ 1048576 ∧ k ∈ rowCells (i + 2)) := by
  rw [writeRow_eq]
  by_cases h : i + 2 > 1048576
  · rw [if_pos h]
    constructor
    · exact Or.inl
    · rintro (x | ⟨x, _⟩)
      · exact x
      · omega
  · rw [if_neg h]
    unfold storeRow
    simp only [mem_mapKeys_mapSet, rowCells, List.mem_cons, List.mem_singleton,
      List.not_mem_nil, or_false]
    have h' : i + 2 ≤ 1048576 := by omega
    tauto

theorem writeRows_find_other (rs : List Result) (k : String) :
    ∀ (i : Nat) (m : GoMap String), (∀ j, i ≤ j → k ∉ rowCells (j + 2)) →
      mapFind (writeRows i rs m) k = mapFind m k := by
  induction rs with
  | nil => intro i m _; rfl
  | cons r rest ih =>
    intro i m h
    simp only [writeRows]
    rw [ih (i + 1) _ (fun j hj => h j (by omega)),
      mapFind_writeRow_other m i r k (h i (Nat.le_refl i))]

theorem writeRows_find_row (rs : List Result) :
    ∀ (i j : Nat) (m : GoMap String) (r : Result), rs.get? j = some r →
      i + j + 2 ≤ 1048576 →
      mapFind (writeRows i rs m) (cellName "A" (i + j + 2)) = some (cellText r.URL) ∧
      mapFind (writeRows i rs m) (cellName "B" (i + j + 2)) = some (cellText r.PoC) ∧
      mapFind (writeRows i rs m) (cellName "C" (i + j + 2)) = some (cellText r.Template) ∧
      mapFind (writeRows i rs m) (cellName "D" (i + j + 2)) = some (cellText r.Severity) := by
  induction rs with
  | nil => intro i j m r h; simp at h
  | cons r0 rest ih =>
    intro i j m r h hrow
    cases j with
    | zero =>
      simp only [List.get?_cons_zero, Option.some.injEq] at h
      subst h
      simp only [writeRows, Nat.add_zero]
      have hother : ∀ k, k ∈ rowCells (i + 2) →
          mapFind (writeRows (i + 1) rest (writeRow m i r0)) k
            = mapFind (storeRow m i r0) k := by
        intro k hk
        rw [writeRows_find_other rest k (i + 1) _ (by
          intro j hj hkj
          have := rowCells_disjoint k _ _ hk hkj
          omega), writeRow_eq, if_neg (by omega)]
      obtain ⟨a, b, c, d⟩ := mapFind_storeRow_row m i r0
      refine ⟨?_, ?_, ?_, ?_⟩
      · rw [hother _ (by simp [rowCells]), a]
      · rw [hother _ (by simp [rowCells]), b]
      · rw [hother _ (by simp [rowCells]), c]
      · rw [hother _ (by simp [rowCells]), d]
    | succ j =>
      simp only [List.get?_cons_succ] at h
      have e : i + (j + 1) + 2 = i + 1 + j + 2 := by omega
      have := ih (i + 1) j (writeRow m i r0) r h (by omega)
      simp only [writeRows]
      rw [e]
      exact this

theorem mem_mapKeys_writeRows (rs : List Result) (k : String) :
    ∀ (i : Nat) (m : GoMap String),
      k ∈ mapKeys (writeRows i rs m) ↔
        k ∈ mapKeys m ∨
          ∃ j, j < rs.length ∧ i + j + 2 ≤ 1048576 ∧ k ∈ rowCells (i + j + 2) := by
  induction rs with
  | nil => intro i m; simp [writeRows]
  | cons r rest ih =>
    intro i m
    simp only [writeRows]
    rw [ih, mem_mapKeys_writeRow]
    constructor
    · rintro ((h | ⟨hr, h⟩) | ⟨j, hj, hr, h⟩)
      · exact Or.inl h
      · exact Or.inr ⟨0, by simp, by simpa using hr, by simpa using h⟩
      · refine Or.inr ⟨j + 1, by simpa using hj, by omega, ?_⟩
        have e : i + (j + 1) + 2 = i + 1 + j + 2 := by omega
        rw [e]
        exact h
    · rintro (h | ⟨j, hj, hr, h⟩)
      · exact Or.inl (Or.inl h)
      · cases j with
        | zero => exact Or.inl (Or.inr ⟨by simpa using hr, by simpa using h⟩)
        | succ j =>
          refine Or.inr ⟨j, by simpa using hj, by omega, ?_⟩
          have e : i + (j + 1) + 2 = i + 1 + j + 2 := by omega
          rw [← e]
          exact h

/-- C8 (as stated, refuted): the header cells C1 and D1 that `exportResultExcel` writes
hold the Chinese labels, not the texts `Template` and `Severity`. -/
theorem report_header_counterexample :
    mapFind (exportResultExcel []) "C1" = some "模板" ∧
    mapFind (exportResultExcel []) "D1" = some "严重性" ∧
    mapFind (exportResultExcel []) "C1" ≠ some "Template" ∧
    mapFind (exportResultExcel []) "D1" ≠ some "Severity" := by
  decide

/-- C8 (amended): for every report, the sheet written by `exportResultExcel` has the
header cells A1 = `URL`, B1 = `PoC`, C1 = `模板`, D1 = `严重性`; for every index `i` of a
finding with `i + 2` at most 1048576, sheet row `i + 2` holds in columns A to D the
stored texts of its URL, PoC, Template and Severity, a stored text being the value
itself when it has at most 32767 characters and its first 32767 characters otherwise;
the cells of the sheet are exactly those of row 1 and of these rows `i + 2`, and cells
of different rows are different. -/
theorem report_cells (results : List Result) :
    (mapFind (exportResultExcel results) "A1" = some "URL" ∧
      mapFind (exportResultExcel results) "B1" = some "PoC" ∧
      mapFind (exportResultExcel results) "C1" = some "模板" ∧
      mapFind (exportResultExcel results) "D1" = some "严重性") ∧
    (∀ (i : Nat) (r : Result), results.get? i = some r → i + 2 ≤ 1048576 →
      mapFind (exportResultExcel results) (cellName "A" (i + 2)) = some (cellText r.URL) ∧
      mapFind (exportResultExcel results) (cellName "B" (i + 2)) = some (cellText r.PoC) ∧
      mapFind (exportResultExcel results) (cellName "C" (i + 2))
        = some (cellText r.Template) ∧
      mapFind (exportResultExcel results) (cellName "D" (i + 2))
        = some (cellText r.Severity)) ∧
    (∀ v : String, (v.length ≤ 32767 → cellText v = v) ∧
      (32767 < v.length → cellText v = String.mk (v.data.take 32767))) ∧
    (∀ k : String, k ∈ mapKeys (exportResultExcel results) ↔
      k ∈ rowCells 1 ∨
        ∃ i, i < results.length ∧ i + 2 ≤ 1048576 ∧ k ∈ rowCells (i + 2)) ∧
    (∀ (k : String) (a b : Nat), k ∈ rowCells a → k ∈ rowCells b → a = b) := by
  have hhead : ∀ k, k ∈ rowCells 1 →
      mapFind (exportResultExcel results) k = mapFind headerSheet k := by
    intro k hk
    apply writeRows_find_other
    intro j _ hkj
    have := rowCells_disjoint k _ _ hk hkj
    omega
  refine ⟨⟨?_, ?_, ?_, ?_⟩, ?_, ?_, ?_, rowCells_disjoint⟩
  · rw [hhead "A1" (by decide)]; decide
  · rw [hhead "B1" (by decide)]; decide
  · rw [hhead "C1" (by decide)]; decide
  · rw [hhead "D1" (by decide)]; decide
  · intro i r h hrow
    have := writeRows_find_row results 0 i headerSheet r h (by omega)
    simpa [exportResultExcel] using this
  · intro v
    refine ⟨cellText_short v, ?_⟩
    intro h
    unfold cellText
    rw [if_pos h]
  · intro k
    unfold exportResultExcel
    rw [mem_mapKeys_writeRows]
    have : k ∈ mapKeys headerSheet ↔ k ∈ rowCells 1 := by
      have e : mapKeys headerSheet = rowCells 1 := by decide
      rw [e]
    rw [this]
    simp

/-- C8 (amended) at a report of 2 findings: sheet row 3 holds the second finding. -/
theorem report_cells_witness :
    ([{ URL := "http://a:80", PoC := "CVE-2021-1111", Template := "CVE-2021-1111",
        Severity := "high" },
      { URL := "http://b:80", PoC := "CVE-2022-2222", Template := "CVE-2022-2222",
        Severity := "" }] : List Result).get? 1
      = some { URL := "http://b:80", PoC := "CVE-2022-2222", Template := "CVE-2022-2222",
               Severity := "" } ∧
    1 + 2 ≤ 1048576 ∧
    mapFind (exportResultExcel
      [{ URL := "http://a:80", PoC := "CVE-2021-1111", Template := "CVE-2021-1111",
         Severity := "high" },
       { URL := "http://b:80", PoC := "CVE-2022-2222", Template := "CVE-2022-2222",
         Severity := "" }]) (cellName "A" (1 + 2)) = some "http://b:80" :=
  ⟨by decide, by decide,
    ((report_cells
      [{ URL := "http://a:80", PoC := "CVE-2021-1111", Template := "CVE-2021-1111",
         Severity := "high" },
       { URL := "http://b:80", PoC := "CVE-2022-2222", Template := "CVE-2022-2222",
         Severity := "" }]).2.1 1
      { URL := "http://b:80", PoC := "CVE-2022-2222", Template := "CVE-2022-2222",
        Severity := "" } (by decide) (by decide)).1.trans (by decide)⟩

/-! ## Input cleaning -/

theorem trimRight_idem (l : List Char) : trimRight (trimRight l) = trimRight l := by
  unfold trimRight
  rw [List.reverse_reverse, List.dropWhile_idempotent]

theorem trimRight_prefix (l : List Char) : trimRight l <+: l := by
  unfold trimRight
  have h := List.dropWhile_suffix (l := l.reverse) isSpace
  have h2 := List.reverse_prefix.mpr h
  rwa [List.reverse_reverse] at h2

theorem dropWhile_trimChars (l : List Char) :
    (trimChars l).dropWhile isSpace = trimChars l := by
  unfold trimChars
  have hpre := trimRight_prefix (l.dropWhile isSpace)
  cases hm : l.dropWhile isSpace with
  | nil =>
    rw [hm] at hpre
    have : trimRight [] = [] := List.prefix_nil.mp hpre
    rw [this]
    rfl
  | cons a rest =>
    rw [hm] at hpre
    have ha : isSpace a = false := by
      have hne : l.dropWhile isSpace ≠ [] := by rw [hm]; simp
      have := List.head_dropWhile_not isSpace l hne
      simpa [hm] using this
    rcases List.prefix_cons_iff.mp hpre with h | ⟨t, h, _⟩
    · rw [h]
      rfl
    · rw [h, List.dropWhile_cons]
      simp [ha]

theorem trimChars_idem (l : List Char) : trimChars (trimChars l) = trimChars l := by
  have h1 := dropWhile_trimChars l
  have h2 : trimRight (trimChars l) = trimChars l := by
    unfold trimChars
    exact trimRight_idem _
  show trimRight ((trimChars l).dropWhile isSpace) = trimChars l
  rw [h1, h2]

theorem trimSpace_idem (s : String) : trimSpace (trimSpace s) = trimSpace s := by
  unfold trimSpace
  rw [trimChars_idem]

theorem extractBaseURL_trimSpace (urlParse : String → Option ParsedURL) (s : String) :
    extractBaseURL urlParse (trimSpace s) = extractBaseURL urlParse s := by
  unfold extractBaseURL
  rw [trimSpace_idem]

/-- The 3 cases of `extractBaseURL`, with the test the code applies to the host. -/
theorem extractBaseURL_cases (urlParse : String → Option ParsedURL) (raw : String) :
    (strContains (trimSpace raw) "://" = false →
      extractBaseURL urlParse raw = trimSpace raw) ∧
    (strContains (trimSpace raw) "://" = true →
      (urlParse (trimSpace raw) = none ∨
        ∃ u, urlParse (trimSpace raw) = some u ∧ (u.Scheme = "" ∨ u.Host = "")) →
      extractBaseURL urlParse raw = "") ∧
    (∀ u : ParsedURL, strContains (trimSpace raw) "://" = true →
      urlParse (trimSpace raw) = some u → u.Scheme ≠ "" → u.Host ≠ "" →
      extractBaseURL urlParse raw =
        u.Scheme ++ "://" ++
          (if strContains u.Host ":" = true then u.Host
           else if u.Scheme = "https" then u.Host ++ ":443" else u.Host ++ ":80")) := by
  refine ⟨?_, ?_, ?_⟩
  · intro h
    simp [extractBaseURL, h]
  · intro h hp
    rcases hp with hp | ⟨u, hp, hu⟩
    · simp [extractBaseURL, h, hp]
    · simp [extractBaseURL, h, hp, hu]
  · intro u h hp hs hh
    have hn : ¬ (u.Scheme = "" ∨ u.Host = "") := by
      rintro (x | x)
      · exact hs x
      · exact hh x
    by_cases hc : strContains u.Host ":" = true
    · simp [extractBaseURL, h, hp, hn, hc]
    · simp [extractBaseURL, h, hp, hn, hc]

/-- The two examples of the normalisation: no scheme separator, and an https URL with a
path. -/
theorem extractBaseURL_examples :
    (∀ urlParse : String → Option ParsedURL,
      extractBaseURL urlParse "example.com" = "example.com") ∧
    extractBaseURL sampleUrlParse "https://example.com/path" = "https://example.com:443" ∧
    extractBaseURL sampleUrlParse "http://example.com:8080/x" = "http://example.com:8080" := by
  refine ⟨?_, by decide, by decide⟩
  intro urlParse
  have h1 : trimSpace "example.com" = "example.com" := by decide
  have h2 : strContains "example.com" "://" = false := by decide
  simp [extractBaseURL, h1, h2]

/-- C9 (the code at the failing input): `url.Parse` reads `http://[::1]/admin` as scheme
`http` and host `[::1]`, a host without a port; `extractBaseURL` finds a colon in the
host and appends no port. -/
theorem extractBaseURL_ipv6_no_port :
    sampleUrlParse "http://[::1]/admin" = some { Scheme := "http", Host := "[::1]" } ∧
    urlPort "[::1]" = "" ∧
    extractBaseURL sampleUrlParse "http://[::1]/admin" = "http://[::1]" ∧
    extractBaseURL sampleUrlParse "http://[::1]/admin" ≠ "http://[::1]:80" := by
  decide

theorem mem_firstOccurrences (l : List String) (x : String) :
    x ∈ firstOccurrences l ↔ x ∈ l := by
  induction l with
  | nil => simp [firstOccurrences]
  | cons y rest ih =>
    simp only [firstOccurrences, List.mem_cons, List.mem_filter, ih, decide_eq_true_eq]
    by_cases h : x = y
    · simp [h]
    · simp [h]

theorem nodup_firstOccurrences (l : List String) : (firstOccurrences l).Nodup := by
  induction l with
  | nil => simp [firstOccurrences]
  | cons y rest ih =>
    simp only [firstOccurrences]
    apply List.Nodup.cons
    · simp [List.mem_filter]
    · exact List.Nodup.filter _ ih

theorem firstOccurrences_sublist (l : List String) : (firstOccurrences l).Sublist l := by
  induction l with
  | nil => simp [firstOccurrences]
  | cons y rest ih =>
    simp only [firstOccurrences]
    exact List.Sublist.cons₂ y ((List.filter_sublist _).trans ih)

/-- The loop of `cleanTxtFile`, started with any map `unique` and slice `cleaned`,
appends the first occurrences of the normalised values that `unique` does not hold. -/
theorem cleanLoop_eq (urlParse : String → Option ParsedURL) (lines : List String) :
    ∀ (unique : GoMap Bool) (cleaned : List String),
      cleanLoop urlParse lines unique cleaned
        = cleaned ++ (firstOccurrences
            (((lines.filter (fun line => trimSpace line ≠ "")).map
              (extractBaseURL urlParse)).filter (fun base => base ≠ ""))).filter
            (fun x => !(mapGet false unique x)) := by
  induction lines with
  | nil => intro unique cleaned; simp [cleanLoop, firstOccurrences]
  | cons line rest ih =>
    intro unique cleaned
    unfold cleanLoop
    dsimp only
    by_cases ht : trimSpace line = ""
    · rw [if_pos ht, ih]
      simp [List.filter_cons, ht]
    · rw [if_neg ht, extractBaseURL_trimSpace]
      by_cases hb : extractBaseURL urlParse line = ""
      · have hc : ¬ (extractBaseURL urlParse line ≠ "" ∧
            (!(mapGet false unique (extractBaseURL urlParse line))) = true) :=
          fun h => h.1 hb
        rw [if_neg hc, ih]
        simp [List.filter_cons, ht, hb]
      · by_cases hu : mapGet false unique (extractBaseURL urlParse line) = true
        · have hc : ¬ (extractBaseURL urlParse line ≠ "" ∧
              (!(mapGet false unique (extractBaseURL urlParse line))) = true) := by
            rintro ⟨_, h⟩
            simp [hu] at h
          rw [if_neg hc, ih]
          simp only [List.filter_cons, ht, hb, ne_eq, not_false_eq_true, decide_True,
            if_true, List.map_cons, firstOccurrences, hu, Bool.not_true, Bool.false_eq_true,
            if_false, List.filter_filter]
          congr 1
          apply List.filter_congr
          intro x _
          by_cases hx : x = extractBaseURL urlParse line
          · subst hx
            simp [hu]
          · simp [hx]
        · have hu' : mapGet false unique (extractBaseURL urlParse line) = false := by
            simpa using hu
          have hc : extractBaseURL urlParse line ≠ "" ∧
              (!(mapGet false unique (extractBaseURL urlParse line))) = true :=
            ⟨hb, by simp [hu']⟩
          rw [if_pos hc, ih]
          simp only [List.filter_cons, ht, hb, ne_eq, not_false_eq_true, decide_True,
            if_true, List.map_cons, firstOccurrences, hu', Bool.not_false,
            List.filter_filter, List.append_assoc, List.singleton_append]
          congr 2
          apply List.filter_congr
          intro x _
          rw [mapGet_mapSet]
          by_cases hx : x = extractBaseURL urlParse line
          · subst hx
            simp
          · have hx' : ¬ extractBaseURL urlParse line = x := fun e => hx e.symm
            simp [hx, hx']

/-- C10: for every input text, the list `cleanTxtFile` writes is the list of the
non-empty `extractBaseURL` results of the non-blank lines with every value kept at its
first occurrence only, in the order of the first occurrences; it holds no value twice
and no empty value. In particular two lines that normalise to the same value give one
entry. -/
theorem cleaned_list_exact (urlParse : String → Option ParsedURL) (data : String) :
    cleanTxtFile urlParse data = cleanedSpec urlParse data ∧
    (cleanTxtFile urlParse data).Nodup ∧
    "" ∉ cleanTxtFile urlParse data ∧
    (cleanTxtFile urlParse data).Sublist
      ((splitLines data).map (extractBaseURL urlParse)) ∧
    (urlParse "https://example.com/a" = some { Scheme := "https", Host := "example.com" } →
      urlParse "https://example.com/b" = some { Scheme := "https", Host := "example.com" } →
      cleanTxtFile urlParse "https://example.com/a\nhttps://example.com/b\n"
        = ["https://example.com:443"]) := by
  have main : ∀ d, cleanTxtFile urlParse d = cleanedSpec urlParse d := by
    intro d
    unfold cleanTxtFile cleanedSpec
    rw [cleanLoop_eq]
    simp [mapGet, mapFind]
  refine ⟨main data, ?_, ?_, ?_, ?_⟩
  · rw [main]
    exact nodup_firstOccurrences _
  · rw [main]
    unfold cleanedSpec
    rw [mem_firstOccurrences]
    simp [List.mem_filter]
  · rw [main]
    unfold cleanedSpec
    refine (firstOccurrences_sublist _).trans ?_
    refine (List.filter_sublist _).trans ?_
    exact List.Sublist.map _ (List.filter_sublist _)
  · intro ha hb
    rw [main]
    have hsplit : splitLines "https://example.com/a\nhttps://example.com/b\n"
        = ["https://example.com/a", "https://example.com/b", ""] := by decide
    have h1 : trimSpace "https://example.com/a" = "https://example.com/a" := by decide
    have h2 : trimSpace "https://example.com/b" = "https://example.com/b" := by decide
    have c1 : strContains "https://example.com/a" "://" = true := by decide
    have c2 : strContains "https://example.com/b" "://" = true := by decide
    have c3 : strContains "example.com" ":" = false := by decide
    have ea : extractBaseURL urlParse "https://example.com/a" = "https://example.com:443" := by
      simp only [extractBaseURL, h1, c1, ha, c3]
      decide
    have eb : extractBaseURL urlParse "https://example.com/b" = "https://example.com:443" := by
      simp only [extractBaseURL, h2, c2, hb, c3]
      decide
    have hf : (["https://example.com/a", "https://example.com/b", ""].filter
        (fun line => trimSpace line ≠ ""))
        = ["https://example.com/a", "https://example.com/b"] := by decide
    unfold cleanedSpec
    rw [hsplit, hf]
    simp only [List.map_cons, List.map_nil, ea, eb]
    decide

/-- C10 at the example: the table `sampleUrlParse` meets the 2 conditions and the two
lines give one entry. -/
theorem cleaned_list_exact_witness :
    sampleUrlParse "https://example.com/a"
      = some { Scheme := "https", Host := "example.com" } ∧
    sampleUrlParse "https://example.com/b"
      = some { Scheme := "https", Host := "example.com" } ∧
    cleanTxtFile sampleUrlParse "https://example.com/a\nhttps://example.com/b\n"
      = ["https://example.com:443"] :=
  ⟨by decide, by decide,
    (cleaned_list_exact sampleUrlParse "").2.2.2.2 (by decide) (by decide)⟩

end GoVulnScan
